import Mathlib

/-!
# Verification of the tree-data generator (`src/data.jsx`)

This file gives a shallow embedding of the data generator in
`src/src/data.jsx` and proves/refutes the claims of the specification.

Modelling choices:

* JavaScript numbers are modelled by `JSVal`: a rational number, `NaN`,
  or a signed infinity.  The arithmetic used by the generator
  (`+`, `*`, `/`, `Math.round`, `Math.floor`) is embedded with the
  IEEE-754 special-value propagation rules that matter here
  (`c / 0 = ±Infinity` for `c ≠ 0`, `0 / 0 = NaN`, `0 * Infinity = NaN`,
  `NaN` absorbing, `x !== x` for `NaN`).  Finite values are rationals
  rather than doubles; none of the verified properties depends on the
  precision of binary floating point, only on the results of `round`
  being integers and on special-value propagation.
* `Math.random()` is modelled by an explicit stream `rnd : ℕ → ℚ`
  together with a counter threaded through generation in exactly the
  order the source consumes draws; a valid stream has every draw in
  `[0, 1)`.
* Entries are JS objects mutated in place through references held by the
  grouping table.  The embedding uses a store `List Entry` and lists of
  indices into it; mutation of a child becomes `List.set` at the child's
  index.
* JS object key iteration (`for parentKey in groupedEntries`) is
  embedded as iteration over groups in first-occurrence order of their
  keys.  (JS additionally fronts integer-like keys; since distinct
  groups at one level touch pairwise disjoint value slots, the final
  store does not depend on the order in which groups are processed, so
  this difference is unobservable in the result.)
-/

/-- A JavaScript number: a finite rational, `NaN`, or a signed infinity. -/
inductive JSVal where
  | num : ℚ → JSVal
  | nan : JSVal
  | posInf : JSVal
  | negInf : JSVal
deriving DecidableEq, Repr

namespace JSVal

/-- JS addition with IEEE special-value rules. -/
def add : JSVal → JSVal → JSVal
  | num a, num b => num (a + b)
  | nan, _ => nan
  | _, nan => nan
  | posInf, negInf => nan
  | negInf, posInf => nan
  | posInf, _ => posInf
  | _, posInf => posInf
  | negInf, _ => negInf
  | _, negInf => negInf

/-- JS subtraction with IEEE special-value rules. -/
def sub : JSVal → JSVal → JSVal
  | num a, num b => num (a - b)
  | nan, _ => nan
  | _, nan => nan
  | posInf, posInf => nan
  | negInf, negInf => nan
  | posInf, _ => posInf
  | _, posInf => negInf
  | negInf, _ => negInf
  | _, negInf => posInf

/-- JS multiplication: `0 * ±Infinity = NaN`, sign rules otherwise. -/
def mul : JSVal → JSVal → JSVal
  | num a, num b => num (a * b)
  | nan, _ => nan
  | _, nan => nan
  | posInf, posInf => posInf
  | posInf, negInf => negInf
  | negInf, posInf => negInf
  | negInf, negInf => posInf
  | posInf, num a => if a = 0 then nan else if 0 < a then posInf else negInf
  | num a, posInf => if a = 0 then nan else if 0 < a then posInf else negInf
  | negInf, num a => if a = 0 then nan else if 0 < a then negInf else posInf
  | num a, negInf => if a = 0 then nan else if 0 < a then negInf else posInf

/-- JS division: `c / 0 = ±Infinity` for `c ≠ 0`, `0 / 0 = NaN`.
(The sign of a zero divisor is taken positive: the generator only ever
divides by an exact sum, and rationals have no negative zero.) -/
def div : JSVal → JSVal → JSVal
  | num a, num b =>
      if b = 0 then (if a = 0 then nan else if 0 < a then posInf else negInf)
      else num (a / b)
  | nan, _ => nan
  | _, nan => nan
  | posInf, posInf => nan
  | posInf, negInf => nan
  | negInf, posInf => nan
  | negInf, negInf => nan
  | posInf, num a => if 0 ≤ a then posInf else negInf
  | negInf, num a => if 0 ≤ a then negInf else posInf
  | num _, posInf => num 0
  | num _, negInf => num 0

/-- `Math.round` on a finite value: half-up rounding, `⌊x + 1/2⌋`
(JS rounds ties toward `+∞`, also for negatives). -/
def jsRoundRat (q : ℚ) : ℤ := ⌊q + 1 / 2⌋

/-- `Math.round`, propagating `NaN` and infinities. -/
def round : JSVal → JSVal
  | num q => num (jsRoundRat q)
  | nan => nan
  | posInf => posInf
  | negInf => negInf

/-- JS strict equality `===` restricted to numbers: `NaN === x` is false. -/
def strictEq : JSVal → JSVal → Bool
  | num a, num b => a == b
  | posInf, posInf => true
  | negInf, negInf => true
  | _, _ => false

/-- The rational carried by a finite value (`0` for the special values);
used only to state properties of values already known to be finite. -/
def toRat : JSVal → ℚ
  | num q => q
  | _ => 0

end JSVal

/-- The value series carried by an entry (`values.plan`, `values.forecast`,
`values.rel`). -/
inductive Series where
  | plan : Series
  | forecast : Series
  | rel : Series
deriving DecidableEq, Repr

/-- One generated tree node: its `path` and its `values` record.  Series or
month slots that the source never creates are modelled as holding `NaN`;
the generator never reads or writes them. -/
structure Entry where
  path : List String
  values : Series → String → JSVal

/-- An entry with no labels and no set values, used as the out-of-range
default of store lookups (never actually reached by the generator). -/
def defaultEntry : Entry := ⟨[], fun _ _ => JSVal.nan⟩

/-- Store lookup: the entry at index `i`. -/
def entryAt (data : List Entry) (i : ℕ) : Entry := data.getD i defaultEntry

/-- Read `entry.values[s][m]` at store index `i`. -/
def getV (data : List Entry) (i : ℕ) (s : Series) (m : String) : JSVal :=
  (entryAt data i).values s m

/-- Write one series/month slot of an entry's values record. -/
def setSlot (vals : Series → String → JSVal) (s : Series) (m : String)
    (v : JSVal) : Series → String → JSVal :=
  fun s2 m2 => if s2 = s ∧ m2 = m then v else vals s2 m2

/-- `entry.values[s][m] = v` at store index `i` (in-place mutation through a
reference becomes `List.set` at the entry's index). -/
def setV (data : List Entry) (i : ℕ) (s : Series) (m : String) (v : JSVal) :
    List Entry :=
  data.set i ⟨(entryAt data i).path, setSlot (entryAt data i).values s m v⟩

/-- `children.reduce((sum, child) => sum + child.values[valueType][month], 0)`:
the JS sum of one series/month slot over a list of store indices. -/
def sumSlots (data : List Entry) (children : List ℕ) (s : Series)
    (m : String) : JSVal :=
  children.foldl (fun acc i => acc.add (getV data i s m)) (JSVal.num 0)

/-- The body of the `for (const child of children)` loop of
`normalizeValuesForMonth` (lines 188–192): overwrite one child's slot with
its value scaled by `scaleFactor` and rounded. -/
def scaleStep (valueType : Series) (month : String) (scaleFactor : JSVal)
    (d : List Entry) (i : ℕ) : List Entry :=
  setV d i valueType month (((getV d i valueType month).mul scaleFactor).round)

/-- `normalizeValuesForMonth` (src/data.jsx lines 177–204): rescale one
series of a sibling group, for one month, to sum to `sumConstraint`, and
put the rounding residual on the last child.  `children` is the list of
store indices of the group, in group order.  (In JS an empty group would
crash on `children[children.length - 1]`; the orchestrator never builds
one, and the embedding leaves the store unchanged in that case.) -/
def normalizeValuesForMonth (data : List Entry) (children : List ℕ)
    (month : String) (valueType : Series) (sumConstraint : ℚ) : List Entry :=
  let currentSum := sumSlots data children valueType month
  let scaleFactor := (JSVal.num sumConstraint).div currentSum
  let data1 := children.foldl (scaleStep valueType month scaleFactor) data
  let adjustedSum := sumSlots data1 children valueType month
  if (adjustedSum.strictEq (JSVal.num sumConstraint)) = true then data1
  else
    match children.getLast? with
    | none => data1
    | some last =>
        setV data1 last valueType month
          ((getV data1 last valueType month).add
            ((JSVal.num sumConstraint).sub adjustedSum))

/-- `valueRanges`: inclusive sampling bounds for the base `plan` value. -/
structure ValueRanges where
  min : ℚ
  max : ℚ
deriving DecidableEq, Repr

/-- The configuration object accepted by `generateTreeData`, with the
source's defaults materialized by the caller. -/
structure Config where
  levelValues : List (List String)
  sumConstraint : ℚ
  months : List String
  valueRanges : ValueRanges
  includeRel : Bool

/-- A model of `Math.random`: draw number `k` of the process-wide stream. -/
def RandStream : Type := ℕ → ℚ

/-- Every draw of the stream lies in `[0, 1)`, as `Math.random` guarantees. -/
def ValidStream (rnd : RandStream) : Prop := ∀ n, 0 ≤ rnd n ∧ rnd n < 1

/-- `generateValues` (src/data.jsx lines 100–128), as a loop over the month
list threading the draw counter: for each month draw a base `plan` value
`⌊rnd k * (max - min + 1)⌋ + min`, derive `forecast` by a ±5% perturbation,
and optionally draw `rel` in `[1, 30]`.  The accumulator starts from the
freshly created `values` record (all slots unset). -/
def genValuesLoop (ranges : ValueRanges) (includeRel : Bool)
    (rnd : RandStream) :
    List String → (Series → String → JSVal) → ℕ →
      (Series → String → JSVal) × ℕ
  | [], vals, k => (vals, k)
  | month :: rest, vals, k =>
      let baseValue : ℚ := ⌊rnd k * (ranges.max - ranges.min + 1)⌋ + ranges.min
      let vals1 := setSlot vals Series.plan month (JSVal.num baseValue)
      let variation : ℚ := rnd (k + 1) * (1 / 10) - 1 / 20
      let vals2 := setSlot vals1 Series.forecast month
        (JSVal.num (JSVal.jsRoundRat (baseValue * (1 + variation))))
      if includeRel then
        genValuesLoop ranges includeRel rnd rest
          (setSlot vals2 Series.rel month
            (JSVal.num (⌊rnd (k + 2) * 30⌋ + 1))) (k + 3)
      else
        genValuesLoop ranges includeRel rnd rest vals2 (k + 2)

/-- `generateValues months ranges includeRel`, returning the values record
and the advanced draw counter. -/
def generateValues (months : List String) (ranges : ValueRanges)
    (includeRel : Bool) (rnd : RandStream) (k : ℕ) :
    (Series → String → JSVal) × ℕ :=
  genValuesLoop ranges includeRel rnd months (fun _ _ => JSVal.nan) k

/-- The body of the source's recursive closure `generatePaths`
(src/data.jsx lines 72–89), with its `for (const value of
levelValues[levelIndex])` loop made explicit: `vals` is the list of labels
still to process at `levelIndex`.  For each label: push the entry for
`currentPath ++ [value]`, recurse into the next level, then continue the
loop.  The `levelIndex >= levelValues.length` guard of the source appears
here as the `if` before the deeper call. -/
def genPaths (levelValues : List (List String)) (months : List String)
    (ranges : ValueRanges) (includeRel : Bool) (rnd : RandStream) :
    List String → ℕ → List String → ℕ → List Entry × ℕ
  | _, _, [], k => ([], k)
  | currentPath, levelIndex, value :: restVals, k =>
      let newPath := currentPath ++ [value]
      let gv := generateValues months ranges includeRel rnd k
      let sub :=
        if h : levelIndex + 1 < levelValues.length then
          genPaths levelValues months ranges includeRel rnd newPath
            (levelIndex + 1) (levelValues.getD (levelIndex + 1) []) gv.2
        else ([], gv.2)
      let tail := genPaths levelValues months ranges includeRel rnd
        currentPath levelIndex restVals sub.2
      (⟨newPath, gv.1⟩ :: (sub.1 ++ tail.1), tail.2)
termination_by _ levelIndex vals _ => (levelValues.length - levelIndex, vals.length)
decreasing_by
  · apply Prod.Lex.left
    omega
  · apply Prod.Lex.right
    simp

/-- The first loop of `generateEntriesForAllLevels` (lines 64–69): one
depth-1 entry per label of `levelValues[0]`, sampling values in order. -/
def genLevel1 (months : List String) (ranges : ValueRanges)
    (includeRel : Bool) (rnd : RandStream) :
    List String → ℕ → List Entry × ℕ
  | [], k => ([], k)
  | value :: rest, k =>
      let gv := generateValues months ranges includeRel rnd k
      let tail := genLevel1 months ranges includeRel rnd rest gv.2
      (⟨[value], gv.1⟩ :: tail.1, tail.2)

/-- The second loop of `generateEntriesForAllLevels` (lines 92–94): for each
depth-1 label, run `generatePaths([value], 1)`. -/
def genFromRoots (levelValues : List (List String)) (months : List String)
    (ranges : ValueRanges) (includeRel : Bool) (rnd : RandStream) :
    List String → ℕ → List Entry × ℕ
  | [], k => ([], k)
  | value :: rest, k =>
      let sub :=
        if 1 < levelValues.length then
          genPaths levelValues months ranges includeRel rnd [value] 1
            (levelValues.getD 1 []) k
        else ([], k)
      let tail := genFromRoots levelValues months ranges includeRel rnd
        rest sub.2
      (sub.1 ++ tail.1, tail.2)

/-- `generateEntriesForAllLevels` (lines 55–95): all depth-1 entries first,
then every deeper entry, depth-first under each root, in label order. -/
def generateEntriesForAllLevels (levelValues : List (List String))
    (months : List String) (ranges : ValueRanges) (includeRel : Bool)
    (rnd : RandStream) (k : ℕ) : List Entry × ℕ :=
  let l1 := genLevel1 months ranges includeRel rnd
    (levelValues.getD 0 []) k
  let rest := genFromRoots levelValues months ranges includeRel rnd
    (levelValues.getD 0 []) l1.2
  (l1.1 ++ rest.1, rest.2)

/-- `entry.path.slice(0, -1).join("|")`: the grouping key of an entry. -/
def joinPipe : List String → String
  | [] => ""
  | [s] => s
  | s :: rest => s ++ "|" ++ joinPipe rest

/-- The grouping key used by `normalizeAllLevelValues` for levels `> 1`. -/
def parentKey (e : Entry) : String := joinPipe e.path.dropLast

/-- Partition a list of store indices into groups of equal `parentKey`,
in first-occurrence order of the keys, each group in input order — the
observable behaviour of pushing into `groupedEntries[parentPath]` and
iterating its keys. -/
def groupByKey (data : List Entry) : List ℕ → List (List ℕ)
  | [] => []
  | i :: rest =>
      let key := parentKey (entryAt data i)
      (i :: rest.filter (fun j => parentKey (entryAt data j) == key)) ::
        groupByKey data
          (rest.filter (fun j => !(parentKey (entryAt data j) == key)))
termination_by l => l.length
decreasing_by
  simp only [List.length_cons]
  exact Nat.lt_succ_of_le (List.length_filter_le _ _)

/-- The store indices of the entries with `path.length == level`
(`data.filter((item) => item.path.length === level)`, as indices). -/
def entriesAtLevelIdx (data : List Entry) (level : ℕ) : List ℕ :=
  (List.range data.length).filter
    (fun i => (entryAt data i).path.length == level)

/-- The grouping step of `normalizeAllLevelValues` (lines 139–156): at
level 1 a single `"root"` group of all level-1 entries, at deeper levels
one group per distinct parent key. -/
def levelGroups (data : List Entry) (level : ℕ) : List (List ℕ) :=
  if level = 1 then [entriesAtLevelIdx data level]
  else groupByKey data (entriesAtLevelIdx data level)

/-- The per-group body of the normalization loop (lines 162–169): for each
month, normalize the group's `plan` and then its `forecast` values. -/
def normalizeGroupMonths (months : List String) (sumConstraint : ℚ)
    (d : List Entry) (children : List ℕ) : List Entry :=
  months.foldl
    (fun d2 month =>
      normalizeValuesForMonth
        (normalizeValuesForMonth d2 children month Series.plan sumConstraint)
        children month Series.forecast sumConstraint)
    d

/-- One iteration of the outer `for level` loop of `normalizeAllLevelValues`
(lines 135–171): select the entries at `level`, group them (one `"root"`
group at level 1, else by parent key), and normalize each group's `plan`
and `forecast` values for every month. -/
def processLevel (months : List String) (sumConstraint : ℚ)
    (data : List Entry) (level : ℕ) : List Entry :=
  (levelGroups data level).foldl (normalizeGroupMonths months sumConstraint)
    data

/-- `normalizeAllLevelValues` (lines 133–172): run `processLevel` for each
`level` from 1 to `levelValues.length`. -/
def normalizeAllLevelValues (data : List Entry)
    (levelValues : List (List String)) (months : List String)
    (sumConstraint : ℚ) : List Entry :=
  (List.range levelValues.length).foldl
    (fun d lvl => processLevel months sumConstraint d (lvl + 1)) data

/-- The errors `generateTreeData` can throw. -/
inductive GenError where
  | validationError : String → GenError
deriving DecidableEq, Repr

/-- `generateTreeData` (lines 13–50): validate the level sets, generate one
entry per prefix path (consuming the random stream from draw `0`), then
normalize every level.  Throwing is modelled by `Except.error`. -/
def generateTreeData (cfg : Config) (rnd : RandStream) :
    Except GenError (List Entry) :=
  if cfg.levelValues.length = 0 then
    Except.error (GenError.validationError
      "levelValues must be a non-empty array of arrays")
  else if cfg.levelValues.any (fun level => level.length = 0) then
    Except.error (GenError.validationError
      "Each level must be a non-empty array of values")
  else
    let (entries, _) := generateEntriesForAllLevels cfg.levelValues cfg.months
      cfg.valueRanges cfg.includeRel rnd 0
    Except.ok (normalizeAllLevelValues entries cfg.levelValues cfg.months
      cfg.sumConstraint)

/-! ## Store lemmas: reading after writing one slot -/

theorem length_setV (data : List Entry) (i : ℕ) (s : Series) (m : String)
    (v : JSVal) : (setV data i s m v).length = data.length :=
  List.length_set data i _

theorem entryAt_setV (data : List Entry) (i : ℕ) (s : Series) (m : String)
    (v : JSVal) (j : ℕ) :
    entryAt (setV data i s m v) j =
      if i = j ∧ j < data.length then
        ⟨(entryAt data i).path, setSlot (entryAt data i).values s m v⟩
      else entryAt data j := by
  unfold entryAt setV
  rw [List.getD_eq_getElem?_getD, List.getD_eq_getElem?_getD,
    List.getElem?_set]
  by_cases hij : i = j
  · subst hij
    by_cases hlen : i < data.length
    · simp only [hlen, if_true, and_true, Option.getD_some]
      unfold entryAt
      rw [List.getD_eq_getElem?_getD]
    · simp only [hlen, if_false, and_false, if_true, Option.getD_none]
      rw [List.getD_eq_getElem?_getD,
        List.getElem?_eq_none (Nat.le_of_not_lt hlen), Option.getD_none]
  · simp [hij]

theorem path_entryAt_setV (data : List Entry) (i : ℕ) (s : Series)
    (m : String) (v : JSVal) (j : ℕ) :
    (entryAt (setV data i s m v) j).path = (entryAt data j).path := by
  rw [entryAt_setV]
  by_cases h : i = j ∧ j < data.length
  · rcases h with ⟨rfl, _⟩
    simp [*]
  · simp [h]

theorem getV_setV (data : List Entry) (i : ℕ) (s : Series) (m : String)
    (v : JSVal) (j : ℕ) (s2 : Series) (m2 : String) :
    getV (setV data i s m v) j s2 m2 =
      if i = j ∧ j < data.length ∧ s2 = s ∧ m2 = m then v
      else getV data j s2 m2 := by
  unfold getV
  rw [entryAt_setV]
  by_cases hij : i = j ∧ j < data.length
  · rcases hij with ⟨rfl, hlen⟩
    simp only [hlen, and_true, true_and, if_true]
    unfold setSlot
    by_cases hsm : s2 = s ∧ m2 = m
    · simp [hsm]
    · simp [hsm]
  · rw [if_neg hij, if_neg]
    intro h
    exact hij ⟨h.1, h.2.1⟩

/-- Reading an untouched slot after a write. -/
theorem getV_setV_other (data : List Entry) (i : ℕ) (s : Series) (m : String)
    (v : JSVal) (j : ℕ) (s2 : Series) (m2 : String)
    (h : i ≠ j ∨ s2 ≠ s ∨ m2 ≠ m) :
    getV (setV data i s m v) j s2 m2 = getV data j s2 m2 := by
  rw [getV_setV, if_neg]
  rintro ⟨rfl, -, rfl, rfl⟩
  rcases h with h | h | h <;> exact h rfl

/-- Reading the slot just written (at a valid index). -/
theorem getV_setV_self (data : List Entry) (i : ℕ) (s : Series) (m : String)
    (v : JSVal) (h : i < data.length) :
    getV (setV data i s m v) i s m = v := by
  rw [getV_setV, if_pos ⟨rfl, h, rfl, rfl⟩]

/-! ## The scaling loop -/

theorem length_scaleLoop (ch : List ℕ) (data : List Entry) (t : Series)
    (m : String) (sc : JSVal) :
    (ch.foldl (scaleStep t m sc) data).length = data.length := by
  induction ch generalizing data with
  | nil => rfl
  | cons i rest ih =>
      rw [List.foldl_cons, ih]
      exact length_setV ..

theorem path_scaleLoop (ch : List ℕ) (data : List Entry) (t : Series)
    (m : String) (sc : JSVal) (j : ℕ) :
    (entryAt (ch.foldl (scaleStep t m sc) data) j).path =
      (entryAt data j).path := by
  induction ch generalizing data with
  | nil => rfl
  | cons i rest ih =>
      rw [List.foldl_cons, ih]
      exact path_entryAt_setV ..

/-- The scaling loop writes only the slots `(i ∈ ch, t, m)`. -/
theorem getV_scaleLoop_other (ch : List ℕ) (data : List Entry) (t : Series)
    (m : String) (sc : JSVal) (j : ℕ) (s2 : Series) (m2 : String)
    (h : j ∉ ch ∨ s2 ≠ t ∨ m2 ≠ m) :
    getV (ch.foldl (scaleStep t m sc) data) j s2 m2 = getV data j s2 m2 := by
  induction ch generalizing data with
  | nil => rfl
  | cons i rest ih =>
      rw [List.foldl_cons]
      have hrest : j ∉ rest ∨ s2 ≠ t ∨ m2 ≠ m := by
        rcases h with h | h
        · exact Or.inl (fun hj => h (List.mem_cons_of_mem _ hj))
        · exact Or.inr h
      rw [ih _ hrest]
      apply getV_setV_other
      rcases h with h | h
      · exact Or.inl (fun hj => h (hj ▸ List.mem_cons_self i rest))
      · exact Or.inr h

/-- The scaling loop sets each child's slot to its original value scaled
and rounded (children are pairwise distinct, as they are in the source:
each group holds each entry reference once). -/
theorem getV_scaleLoop_mem (ch : List ℕ) (data : List Entry) (t : Series)
    (m : String) (sc : JSVal) (i : ℕ) (hnd : ch.Nodup) (hi : i ∈ ch)
    (hlen : i < data.length) :
    getV (ch.foldl (scaleStep t m sc) data) i t m =
      ((getV data i t m).mul sc).round := by
  induction ch generalizing data with
  | nil => cases hi
  | cons i0 rest ih =>
      rw [List.foldl_cons]
      rcases List.mem_cons.mp hi with rfl | hmem
      · have hnin : i ∉ rest := (List.nodup_cons.mp hnd).1
        rw [getV_scaleLoop_other _ _ _ _ _ _ _ _ (Or.inl hnin)]
        exact getV_setV_self _ _ _ _ _ hlen
      · have hlen0 : i < (scaleStep t m sc data i0).length := by
          unfold scaleStep
          rw [length_setV]; exact hlen
        rw [ih _ (List.nodup_cons.mp hnd).2 hmem hlen0]
        have : getV (scaleStep t m sc data i0) i t m = getV data i t m := by
          have hne : i0 ≠ i := by
            rintro rfl
            exact (List.nodup_cons.mp hnd).1 hmem
          exact getV_setV_other _ _ _ _ _ _ _ _ (Or.inl hne)
        rw [this]

/-! ## Summing slots -/

theorem foldl_add_congr (d1 d2 : List Entry) (s : Series) (m : String) :
    ∀ (ch : List ℕ) (acc : JSVal),
      (∀ i ∈ ch, getV d1 i s m = getV d2 i s m) →
      ch.foldl (fun a i => a.add (getV d1 i s m)) acc =
        ch.foldl (fun a i => a.add (getV d2 i s m)) acc
  | [], _, _ => rfl
  | i :: rest, acc, h => by
      rw [List.foldl_cons, List.foldl_cons, h i (List.mem_cons_self i rest)]
      exact foldl_add_congr d1 d2 s m rest _
        (fun j hj => h j (List.mem_cons_of_mem _ hj))

theorem sumSlots_congr (d1 d2 : List Entry) (ch : List ℕ) (s : Series)
    (m : String) (h : ∀ i ∈ ch, getV d1 i s m = getV d2 i s m) :
    sumSlots d1 ch s m = sumSlots d2 ch s m :=
  foldl_add_congr d1 d2 s m ch (JSVal.num 0) h

theorem foldl_add_num (d : List Entry) (ch : List ℕ) (s : Series)
    (m : String) (h : ∀ i ∈ ch, ∃ q : ℚ, getV d i s m = JSVal.num q)
    (a : ℚ) :
    ch.foldl (fun acc i => acc.add (getV d i s m)) (JSVal.num a) =
      JSVal.num (a + (ch.map (fun i => (getV d i s m).toRat)).sum) := by
  induction ch generalizing a with
  | nil => simp
  | cons i rest ih =>
      obtain ⟨q, hq⟩ := h i (List.mem_cons_self i rest)
      rw [List.foldl_cons, List.map_cons, List.sum_cons, hq]
      show List.foldl _ (JSVal.num (a + q)) rest = _
      rw [ih (fun j hj => h j (List.mem_cons_of_mem _ hj)) (a + q)]
      simp only [JSVal.toRat]
      rw [add_assoc]

/-- A sum of finite slots is the finite value of the rational sum. -/
theorem sumSlots_num (d : List Entry) (ch : List ℕ) (s : Series)
    (m : String) (h : ∀ i ∈ ch, ∃ q : ℚ, getV d i s m = JSVal.num q) :
    sumSlots d ch s m =
      JSVal.num ((ch.map (fun i => (getV d i s m).toRat)).sum) := by
  unfold sumSlots
  rw [foldl_add_num d ch s m h 0, zero_add]

/-! ## Frame properties of `normalizeValuesForMonth` -/

theorem length_normalizeValuesForMonth (data : List Entry) (ch : List ℕ)
    (m : String) (t : Series) (C : ℚ) :
    (normalizeValuesForMonth data ch m t C).length = data.length := by
  unfold normalizeValuesForMonth
  simp only
  split
  · exact length_scaleLoop ..
  · split
    · exact length_scaleLoop ..
    · rw [length_setV, length_scaleLoop]

theorem path_normalizeValuesForMonth (data : List Entry) (ch : List ℕ)
    (m : String) (t : Series) (C : ℚ) (j : ℕ) :
    (entryAt (normalizeValuesForMonth data ch m t C) j).path =
      (entryAt data j).path := by
  unfold normalizeValuesForMonth
  simp only
  split
  · exact path_scaleLoop ..
  · split
    · exact path_scaleLoop ..
    · rw [path_entryAt_setV, path_scaleLoop]

/-- `normalizeValuesForMonth` writes only the slots `(i ∈ ch, t, m)`. -/
theorem getV_normalizeValuesForMonth_other (data : List Entry) (ch : List ℕ)
    (m : String) (t : Series) (C : ℚ) (j : ℕ) (s2 : Series) (m2 : String)
    (h : j ∉ ch ∨ s2 ≠ t ∨ m2 ≠ m) :
    getV (normalizeValuesForMonth data ch m t C) j s2 m2 =
      getV data j s2 m2 := by
  unfold normalizeValuesForMonth
  simp only
  split
  · exact getV_scaleLoop_other _ _ _ _ _ _ _ _ h
  · split
    · exact getV_scaleLoop_other _ _ _ _ _ _ _ _ h
    · rename_i last hlast
      rw [getV_setV_other]
      · exact getV_scaleLoop_other _ _ _ _ _ _ _ _ h
      · rcases h with h | h
        · exact Or.inl (fun hj => h (hj ▸ List.mem_of_mem_getLast? hlast))
        · exact Or.inr h

/-! ## The per-group outcome of `normalizeValuesForMonth` -/

/-- The pre-scale rational sum of a group's slots (the group's
`currentSum`, assuming the slots are finite). -/
def groupSum (data : List Entry) (ch : List ℕ) (t : Series) (m : String) :
    ℚ :=
  (ch.map (fun i => (getV data i t m).toRat)).sum

/-- The value a child's slot holds right after the scaling loop:
`round(value * (constraint / currentSum))`. -/
def scaledVal (data : List Entry) (ch : List ℕ) (t : Series) (m : String)
    (C : ℚ) (i : ℕ) : ℤ :=
  JSVal.jsRoundRat ((getV data i t m).toRat * (C / groupSum data ch t m))

/-- The group's post-rounding sum (the `adjustedSum` of the source). -/
def scaledSum (data : List Entry) (ch : List ℕ) (t : Series) (m : String)
    (C : ℚ) : ℤ :=
  (ch.map (scaledVal data ch t m C)).sum

/-- Splitting a sum over a nonempty list at its last element. -/
theorem sum_map_split_last (ch : List ℕ) (hne : ch ≠ []) (f : ℕ → ℚ) :
    (ch.map f).sum = (ch.dropLast.map f).sum + f (ch.getLast hne) := by
  conv_lhs => rw [show ch.map f = (ch.dropLast ++ [ch.getLast hne]).map f
    from by rw [List.dropLast_append_getLast hne]]
  rw [List.map_append, List.sum_append]
  simp

theorem toRat_num (q : ℚ) : (JSVal.num q).toRat = q := rfl

theorem cast_scaledSum (data : List Entry) (ch : List ℕ) (t : Series)
    (m : String) (C : ℚ) :
    (ch.map (fun i => ((scaledVal data ch t m C i : ℤ) : ℚ))).sum =
      ((scaledSum data ch t m C : ℤ) : ℚ) := by
  unfold scaledSum
  rw [Int.cast_list_sum, List.map_map]
  rfl

/-- The heart of the normalizer: with pairwise-distinct valid children
whose slots are finite and whose pre-scale sum is nonzero, every child
except the last ends at its scaled-and-rounded value, the last child
additionally absorbs the residual `C - postRoundSum`, and the group's sum
becomes exactly the constraint. -/
theorem normalizeValuesForMonth_values (data : List Entry) (ch : List ℕ)
    (m : String) (t : Series) (C : ℚ) (hne : ch ≠ []) (hnd : ch.Nodup)
    (hvalid : ∀ i ∈ ch, i < data.length)
    (hfin : ∀ i ∈ ch, ∃ q : ℚ, getV data i t m = JSVal.num q)
    (hS : groupSum data ch t m ≠ 0) :
    (∀ i ∈ ch, i ≠ ch.getLast hne →
        getV (normalizeValuesForMonth data ch m t C) i t m =
          JSVal.num (scaledVal data ch t m C i)) ∧
    getV (normalizeValuesForMonth data ch m t C) (ch.getLast hne) t m =
      JSVal.num (scaledVal data ch t m C (ch.getLast hne) +
        (C - scaledSum data ch t m C)) ∧
    sumSlots (normalizeValuesForMonth data ch m t C) ch t m =
      JSVal.num C := by
  have hsum : sumSlots data ch t m = JSVal.num (groupSum data ch t m) :=
    sumSlots_num data ch t m hfin
  have hdiv : (JSVal.num C).div (JSVal.num (groupSum data ch t m)) =
      JSVal.num (C / groupSum data ch t m) := by
    simp only [JSVal.div]
    rw [if_neg hS]
  have hd1 : ∀ i ∈ ch,
      getV (List.foldl (scaleStep t m
        (JSVal.num (C / groupSum data ch t m))) data ch) i t m =
      JSVal.num (scaledVal data ch t m C i) := by
    intro i hi
    rw [getV_scaleLoop_mem _ _ _ _ _ _ hnd hi (hvalid i hi)]
    obtain ⟨q, hq⟩ := hfin i hi
    rw [hq]
    show JSVal.num (JSVal.jsRoundRat (q * (C / groupSum data ch t m))) = _
    unfold scaledVal
    rw [hq, toRat_num]
  have hd1len : (List.foldl (scaleStep t m
      (JSVal.num (C / groupSum data ch t m))) data ch).length = data.length :=
    length_scaleLoop ..
  have hd1fin : ∀ i ∈ ch, ∃ q : ℚ,
      getV (List.foldl (scaleStep t m
        (JSVal.num (C / groupSum data ch t m))) data ch) i t m =
      JSVal.num q :=
    fun i hi => ⟨_, hd1 i hi⟩
  have hadj : sumSlots (List.foldl (scaleStep t m
      (JSVal.num (C / groupSum data ch t m))) data ch) ch t m =
      JSVal.num ((scaledSum data ch t m C : ℤ) : ℚ) := by
    rw [sumSlots_num _ ch t m hd1fin]
    congr 1
    have hcongr : ch.map (fun i =>
        (getV (List.foldl (scaleStep t m
          (JSVal.num (C / groupSum data ch t m))) data ch) i t m).toRat) =
        ch.map (fun i => ((scaledVal data ch t m C i : ℤ) : ℚ)) :=
      List.map_congr_left (fun i hi => by rw [hd1 i hi, toRat_num])
    rw [hcongr, cast_scaledSum]
  have hlast_mem : ch.getLast hne ∈ ch := List.getLast_mem hne
  have hlast? : ch.getLast? = some (ch.getLast hne) :=
    List.getLast?_eq_getLast ch hne
  by_cases hAC : ((scaledSum data ch t m C : ℤ) : ℚ) = C
  · have hbeq : (JSVal.num ((scaledSum data ch t m C : ℤ) : ℚ)).strictEq
        (JSVal.num C) = true := by
      simp only [JSVal.strictEq]
      exact beq_iff_eq.mpr hAC
    have hres : normalizeValuesForMonth data ch m t C =
        List.foldl (scaleStep t m
          (JSVal.num (C / groupSum data ch t m))) data ch := by
      unfold normalizeValuesForMonth
      simp only
      rw [hsum, hdiv, hadj, if_pos hbeq]
    refine ⟨fun i hi _ => by rw [hres]; exact hd1 i hi, ?_, ?_⟩
    · rw [hres, hd1 _ hlast_mem, hAC, sub_self, add_zero]
    · rw [hres, hadj, hAC]
  · have hbeq : (JSVal.num ((scaledSum data ch t m C : ℤ) : ℚ)).strictEq
        (JSVal.num C) = false := by
      simp only [JSVal.strictEq]
      exact beq_eq_false_iff_ne.mpr hAC
    have hlast_len : ch.getLast hne < (List.foldl (scaleStep t m
        (JSVal.num (C / groupSum data ch t m))) data ch).length := by
      rw [hd1len]
      exact hvalid _ hlast_mem
    have hres : normalizeValuesForMonth data ch m t C =
        setV (List.foldl (scaleStep t m
          (JSVal.num (C / groupSum data ch t m))) data ch)
          (ch.getLast hne) t m
          (JSVal.num (scaledVal data ch t m C (ch.getLast hne) +
            (C - scaledSum data ch t m C))) := by
      unfold normalizeValuesForMonth
      simp only
      rw [hsum, hdiv, hadj, hbeq]
      simp only [Bool.false_eq_true, if_false]
      rw [hlast?]
      show setV (List.foldl (scaleStep t m
          (JSVal.num (C / groupSum data ch t m))) data ch)
          (ch.getLast hne) t m
          ((getV (List.foldl (scaleStep t m
            (JSVal.num (C / groupSum data ch t m))) data ch)
              (ch.getLast hne) t m).add
            ((JSVal.num C).sub
              (JSVal.num ((scaledSum data ch t m C : ℤ) : ℚ)))) = _
      rw [hd1 _ hlast_mem]
      rfl
    have hdecomp : ch.dropLast ++ [ch.getLast hne] = ch :=
      List.dropLast_append_getLast hne
    have hnotmem : ch.getLast hne ∉ ch.dropLast := by
      have h2 := hnd
      rw [← hdecomp] at h2
      rcases List.nodup_append.mp h2 with ⟨-, -, hdisj⟩
      intro hmem
      exact hdisj hmem (List.mem_singleton_self _)
    refine ⟨?_, ?_, ?_⟩
    · intro i hi hne2
      rw [hres, getV_setV_other _ _ _ _ _ _ _ _
        (Or.inl (fun h => hne2 h.symm))]
      exact hd1 i hi
    · rw [hres, getV_setV_self _ _ _ _ _ hlast_len]
    · have hfin2 : ∀ i ∈ ch, ∃ q : ℚ,
          getV (normalizeValuesForMonth data ch m t C) i t m =
            JSVal.num q := by
        intro i hi
        by_cases hil : i = ch.getLast hne
        · subst hil
          rw [hres, getV_setV_self _ _ _ _ _ hlast_len]
          exact ⟨_, rfl⟩
        · rw [hres, getV_setV_other _ _ _ _ _ _ _ _
            (Or.inl (fun h => hil h.symm))]
          exact ⟨_, hd1 i hi⟩
      rw [sumSlots_num _ ch t m hfin2]
      congr 1
      rw [sum_map_split_last ch hne]
      have hfother : ∀ i ∈ ch.dropLast,
          (getV (normalizeValuesForMonth data ch m t C) i t m).toRat =
            ((scaledVal data ch t m C i : ℤ) : ℚ) := by
        intro i hi
        have hine : i ≠ ch.getLast hne := fun h => hnotmem (h ▸ hi)
        have hich : i ∈ ch := by
          rw [← hdecomp]
          exact List.mem_append_left _ hi
        rw [hres, getV_setV_other _ _ _ _ _ _ _ _
          (Or.inl (fun h => hine h.symm)), hd1 i hich, toRat_num]
      rw [List.map_congr_left hfother]
      have hflast : (getV (normalizeValuesForMonth data ch m t C)
          (ch.getLast hne) t m).toRat =
            ((scaledVal data ch t m C (ch.getLast hne) : ℤ) : ℚ) +
              (C - ((scaledSum data ch t m C : ℤ) : ℚ)) := by
        rw [hres, getV_setV_self _ _ _ _ _ hlast_len]
        rfl
      rw [hflast]
      have hsplit := sum_map_split_last ch hne
        (fun i => ((scaledVal data ch t m C i : ℤ) : ℚ))
      rw [cast_scaledSum] at hsplit
      linarith

/-! ## Determinism: a pass's written slots depend only on its read slots -/

theorem scaleLoop_congr (t : Series) (m : String) (sc : JSVal)
    (PP : ℕ → Prop) :
    ∀ (iter : List ℕ) (d1 d2 : List Entry), d1.length = d2.length →
      (∀ i, PP i → getV d1 i t m = getV d2 i t m) →
      (∀ i, PP i →
        getV (List.foldl (scaleStep t m sc) d1 iter) i t m =
          getV (List.foldl (scaleStep t m sc) d2 iter) i t m)
  | [], _, _, _, hagree => hagree
  | i0 :: rest, d1, d2, hlen, hagree => by
      rw [List.foldl_cons, List.foldl_cons]
      refine scaleLoop_congr t m sc PP rest _ _ ?_ ?_
      · show (setV d1 i0 t m _).length = (setV d2 i0 t m _).length
        rw [length_setV, length_setV, hlen]
      · intro i hPPi
        show getV (setV d1 i0 t m _) i t m = getV (setV d2 i0 t m _) i t m
        rw [getV_setV, getV_setV, hlen]
        by_cases hc : i0 = i ∧ i < d2.length ∧ t = t ∧ m = m
        · rw [if_pos hc, if_pos hc]
          rcases hc with ⟨rfl, -, -, -⟩
          rw [hagree i0 hPPi]
        · rw [if_neg hc, if_neg hc]
          exact hagree i hPPi

theorem normalizeValuesForMonth_congr (d1 d2 : List Entry) (ch : List ℕ)
    (m : String) (t : Series) (C : ℚ) (hlen : d1.length = d2.length)
    (hagree : ∀ i ∈ ch, getV d1 i t m = getV d2 i t m) :
    ∀ i ∈ ch, getV (normalizeValuesForMonth d1 ch m t C) i t m =
      getV (normalizeValuesForMonth d2 ch m t C) i t m := by
  have hcs : sumSlots d1 ch t m = sumSlots d2 ch t m :=
    sumSlots_congr _ _ _ _ _ hagree
  have hloop : ∀ i ∈ ch,
      getV (List.foldl (scaleStep t m
        ((JSVal.num C).div (sumSlots d2 ch t m))) d1 ch) i t m =
      getV (List.foldl (scaleStep t m
        ((JSVal.num C).div (sumSlots d2 ch t m))) d2 ch) i t m :=
    fun i hi => scaleLoop_congr t m _ (· ∈ ch) ch d1 d2 hlen
      (fun j hj => hagree j hj) i hi
  have hadj : sumSlots (List.foldl (scaleStep t m
        ((JSVal.num C).div (sumSlots d2 ch t m))) d1 ch) ch t m =
      sumSlots (List.foldl (scaleStep t m
        ((JSVal.num C).div (sumSlots d2 ch t m))) d2 ch) ch t m :=
    sumSlots_congr _ _ _ _ _ hloop
  have hlooplen : (List.foldl (scaleStep t m
        ((JSVal.num C).div (sumSlots d2 ch t m))) d1 ch).length =
      (List.foldl (scaleStep t m
        ((JSVal.num C).div (sumSlots d2 ch t m))) d2 ch).length := by
    rw [length_scaleLoop, length_scaleLoop, hlen]
  unfold normalizeValuesForMonth
  simp only
  rw [hcs, hadj]
  by_cases hc : (sumSlots (List.foldl (scaleStep t m
      ((JSVal.num C).div (sumSlots d2 ch t m))) d2 ch) ch t m).strictEq
        (JSVal.num C) = true
  · rw [if_pos hc, if_pos hc]
    exact hloop
  · rw [if_neg hc, if_neg hc]
    cases hch : ch.getLast? with
    | none => exact hloop
    | some last =>
        have hlmem : last ∈ ch := List.mem_of_mem_getLast? hch
        intro i hi
        rw [getV_setV, getV_setV, hlooplen]
        by_cases hcc : last = i ∧ i < (List.foldl (scaleStep t m
            ((JSVal.num C).div (sumSlots d2 ch t m))) d2 ch).length ∧
              t = t ∧ m = m
        · rw [if_pos hcc, if_pos hcc, hloop last hlmem]
        · rw [if_neg hcc, if_neg hcc]
          exact hloop i hi

/-! ## Properties of the grouping -/

/-- Two stores with the same layout: equal length and equal paths
everywhere.  All grouping decisions depend on the store only through
this. -/
def SamePaths (d1 d2 : List Entry) : Prop :=
  d1.length = d2.length ∧ ∀ j, (entryAt d1 j).path = (entryAt d2 j).path

theorem parentKey_congr (d1 d2 : List Entry)
    (h : ∀ j, (entryAt d1 j).path = (entryAt d2 j).path) (j : ℕ) :
    parentKey (entryAt d1 j) = parentKey (entryAt d2 j) := by
  unfold parentKey
  rw [h j]

theorem groupByKey_mem_sub (data : List Entry) :
    ∀ (l : List ℕ) (g : List ℕ), g ∈ groupByKey data l → ∀ i ∈ g, i ∈ l
  | [], g, hg => by rw [groupByKey] at hg; cases hg
  | i0 :: rest, g, hg => by
      rw [groupByKey] at hg
      rcases List.mem_cons.mp hg with rfl | hg2
      · intro i hi
        rcases List.mem_cons.mp hi with rfl | hi2
        · exact List.mem_cons_self ..
        · exact List.mem_cons_of_mem _ (List.mem_of_mem_filter hi2)
      · intro i hi
        have := groupByKey_mem_sub data _ g hg2 i hi
        exact List.mem_cons_of_mem _ (List.mem_of_mem_filter this)
termination_by l => l.length
decreasing_by
  simp only [List.length_cons]
  exact Nat.lt_succ_of_le (List.length_filter_le _ _)

theorem groupByKey_eq_filter (data : List Entry) :
    ∀ (l : List ℕ) (g : List ℕ), g ∈ groupByKey data l →
      ∃ i0 ∈ l, g = l.filter (fun j =>
        parentKey (entryAt data j) == parentKey (entryAt data i0))
  | [], g, hg => by rw [groupByKey] at hg; cases hg
  | i0 :: rest, g, hg => by
      rw [groupByKey] at hg
      rcases List.mem_cons.mp hg with rfl | hg2
      · refine ⟨i0, List.mem_cons_self .., ?_⟩
        rw [List.filter_cons_of_pos (by simp)]
      · obtain ⟨i1, hi1, hgeq⟩ := groupByKey_eq_filter data _ g hg2
        have hi1rest := List.mem_of_mem_filter hi1
        have hi1key : (parentKey (entryAt data i1) ==
            parentKey (entryAt data i0)) = false := by
          have := List.of_mem_filter hi1
          simpa using this
        refine ⟨i1, List.mem_cons_of_mem _ hi1rest, ?_⟩
        rw [hgeq, List.filter_cons_of_neg]
        · rw [List.filter_filter]
          apply List.filter_congr
          intro j _
          by_cases hj : parentKey (entryAt data j) = parentKey (entryAt data i1)
          · simp only [hj, beq_self_eq_true, Bool.true_and]
            have : (parentKey (entryAt data i1) ==
                parentKey (entryAt data i0)) = false := hi1key
            simp only [this]
            rfl
          · simp [hj]
        · simp only [beq_iff_eq]
          intro heq
          rw [heq] at hi1key
          simp at hi1key
termination_by l => l.length
decreasing_by
  simp only [List.length_cons]
  exact Nat.lt_succ_of_le (List.length_filter_le _ _)

theorem groupByKey_cover (data : List Entry) :
    ∀ (l : List ℕ) (i : ℕ), i ∈ l → ∃ g ∈ groupByKey data l, i ∈ g
  | [], i, hi => absurd hi (List.not_mem_nil i)
  | i0 :: rest, i, hi => by
      rw [groupByKey]
      rcases List.mem_cons.mp hi with rfl | hirest
      · exact ⟨_, List.mem_cons_self .., List.mem_cons_self ..⟩
      · by_cases hk : (parentKey (entryAt data i) ==
            parentKey (entryAt data i0)) = true
        · refine ⟨_, List.mem_cons_self .., ?_⟩
          exact List.mem_cons_of_mem _ (List.mem_filter.mpr ⟨hirest, hk⟩)
        · have hmem : i ∈ rest.filter (fun j =>
              !(parentKey (entryAt data j) == parentKey (entryAt data i0))) :=
            List.mem_filter.mpr ⟨hirest, by simp [Bool.eq_false_iff.mpr hk]⟩
          obtain ⟨g, hg, hig⟩ := groupByKey_cover data _ i hmem
          exact ⟨g, List.mem_cons_of_mem _ hg, hig⟩
termination_by l _ => l.length
decreasing_by
  simp only [List.length_cons]
  exact Nat.lt_succ_of_le (List.length_filter_le _ _)

theorem groupByKey_disjoint (data : List Entry) :
    ∀ (l : List ℕ), (groupByKey data l).Pairwise
      (fun g1 g2 => ∀ x ∈ g1, x ∉ g2)
  | [] => by rw [groupByKey]; exact List.Pairwise.nil
  | i0 :: rest => by
      rw [groupByKey]
      refine List.Pairwise.cons ?_ (groupByKey_disjoint data _)
      intro g2 hg2 x hx hxg2
      have hxkey : parentKey (entryAt data x) = parentKey (entryAt data i0) := by
        rcases List.mem_cons.mp hx with rfl | hx2
        · rfl
        · have := List.of_mem_filter hx2
          simpa using this
      have hxrest : x ∈ rest.filter (fun j =>
          !(parentKey (entryAt data j) == parentKey (entryAt data i0))) :=
        groupByKey_mem_sub data _ g2 hg2 x hxg2
      have := List.of_mem_filter hxrest
      rw [hxkey] at this
      simp at this
termination_by l => l.length
decreasing_by
  simp only [List.length_cons]
  exact Nat.lt_succ_of_le (List.length_filter_le _ _)

theorem groupByKey_congr (d1 d2 : List Entry)
    (h : ∀ j, (entryAt d1 j).path = (entryAt d2 j).path) :
    ∀ (l : List ℕ), groupByKey d1 l = groupByKey d2 l
  | [] => by rw [groupByKey, groupByKey]
  | i0 :: rest => by
      rw [groupByKey, groupByKey]
      have hf1 : rest.filter (fun j => parentKey (entryAt d1 j) ==
            parentKey (entryAt d1 i0)) =
          rest.filter (fun j => parentKey (entryAt d2 j) ==
            parentKey (entryAt d2 i0)) :=
        List.filter_congr (fun j _ => by
          rw [parentKey_congr d1 d2 h j, parentKey_congr d1 d2 h i0])
      have hf2 : rest.filter (fun j => !(parentKey (entryAt d1 j) ==
            parentKey (entryAt d1 i0))) =
          rest.filter (fun j => !(parentKey (entryAt d2 j) ==
            parentKey (entryAt d2 i0))) :=
        List.filter_congr (fun j _ => by
          rw [parentKey_congr d1 d2 h j, parentKey_congr d1 d2 h i0])
      rw [hf1, hf2, groupByKey_congr d1 d2 h _]
termination_by l => l.length
decreasing_by
  simp only [List.length_cons]
  exact Nat.lt_succ_of_le (List.length_filter_le _ _)

/-! ## Properties of the per-level index selection -/

theorem mem_entriesAtLevelIdx (data : List Entry) (level : ℕ) (i : ℕ) :
    i ∈ entriesAtLevelIdx data level ↔
      i < data.length ∧ (entryAt data i).path.length = level := by
  unfold entriesAtLevelIdx
  rw [List.mem_filter, List.mem_range]
  simp

theorem nodup_entriesAtLevelIdx (data : List Entry) (level : ℕ) :
    (entriesAtLevelIdx data level).Nodup :=
  (List.nodup_range _).filter _

theorem entriesAtLevelIdx_congr (d1 d2 : List Entry) (h : SamePaths d1 d2)
    (level : ℕ) : entriesAtLevelIdx d1 level = entriesAtLevelIdx d2 level := by
  unfold entriesAtLevelIdx
  rw [h.1]
  exact List.filter_congr (fun j _ => by rw [h.2 j])

theorem levelGroups_congr (d1 d2 : List Entry) (h : SamePaths d1 d2)
    (level : ℕ) : levelGroups d1 level = levelGroups d2 level := by
  unfold levelGroups
  rw [entriesAtLevelIdx_congr d1 d2 h, groupByKey_congr d1 d2 h.2]

/-! ## The per-group month loop -/

theorem length_normalizeGroupMonths (C : ℚ) (ch : List ℕ) :
    ∀ (months : List String) (d : List Entry),
      (normalizeGroupMonths months C d ch).length = d.length
  | [], _ => rfl
  | mo :: rest, d => by
      show (normalizeGroupMonths rest C _ ch).length = _
      rw [length_normalizeGroupMonths C ch rest _,
        length_normalizeValuesForMonth, length_normalizeValuesForMonth]

theorem path_normalizeGroupMonths (C : ℚ) (ch : List ℕ) :
    ∀ (months : List String) (d : List Entry) (j : ℕ),
      (entryAt (normalizeGroupMonths months C d ch) j).path =
        (entryAt d j).path
  | [], _, _ => rfl
  | mo :: rest, d, j => by
      show (entryAt (normalizeGroupMonths rest C _ ch) j).path = _
      rw [path_normalizeGroupMonths C ch rest _ j,
        path_normalizeValuesForMonth, path_normalizeValuesForMonth]

theorem getV_normalizeGroupMonths_other (C : ℚ) (ch : List ℕ) :
    ∀ (months : List String) (d : List Entry) (j : ℕ) (s : Series)
      (m : String), (j ∉ ch ∨ s = Series.rel ∨ m ∉ months) →
      getV (normalizeGroupMonths months C d ch) j s m = getV d j s m
  | [], _, _, _, _, _ => rfl
  | mo :: rest, d, j, s, m, h => by
      have hrest : j ∉ ch ∨ s = Series.rel ∨ m ∉ rest := by
        rcases h with h | h | h
        · exact Or.inl h
        · exact Or.inr (Or.inl h)
        · exact Or.inr (Or.inr (fun hm => h (List.mem_cons_of_mem _ hm)))
      have hplan : j ∉ ch ∨ s ≠ Series.plan ∨ m ≠ mo := by
        rcases h with h | h | h
        · exact Or.inl h
        · exact Or.inr (Or.inl (by rw [h]; intro hc; cases hc))
        · exact Or.inr (Or.inr (fun hm => h (hm ▸ List.mem_cons_self ..)))
      have hfc : j ∉ ch ∨ s ≠ Series.forecast ∨ m ≠ mo := by
        rcases h with h | h | h
        · exact Or.inl h
        · exact Or.inr (Or.inl (by rw [h]; intro hc; cases hc))
        · exact Or.inr (Or.inr (fun hm => h (hm ▸ List.mem_cons_self ..)))
      show getV (normalizeGroupMonths rest C _ ch) j s m = _
      rw [getV_normalizeGroupMonths_other C ch rest _ j s m hrest,
        getV_normalizeValuesForMonth_other _ _ _ _ _ _ _ _ hfc,
        getV_normalizeValuesForMonth_other _ _ _ _ _ _ _ _ hplan]

theorem getV_normalizeGroupMonths_mem (C : ℚ) (ch : List ℕ) :
    ∀ (months : List String) (d : List Entry), months.Nodup →
      ∀ m ∈ months, ∀ (t : Series),
        (t = Series.plan ∨ t = Series.forecast) → ∀ i ∈ ch,
        getV (normalizeGroupMonths months C d ch) i t m =
          getV (normalizeValuesForMonth d ch m t C) i t m
  | [], _, _, m, hm, _, _, _, _ => absurd hm (List.not_mem_nil m)
  | mo :: rest, d, hnd, m, hm, t, ht, i, hi => by
      have hrestnd : rest.Nodup := (List.nodup_cons.mp hnd).2
      have hmonin : mo ∉ rest := (List.nodup_cons.mp hnd).1
      show getV (normalizeGroupMonths rest C
        (normalizeValuesForMonth (normalizeValuesForMonth d ch mo
          Series.plan C) ch mo Series.forecast C) ch) i t m = _
      rcases List.mem_cons.mp hm with rfl | hmrest
      · rw [getV_normalizeGroupMonths_other C ch rest _ i t m
          (Or.inr (Or.inr hmonin))]
        rcases ht with rfl | rfl
        · rw [getV_normalizeValuesForMonth_other _ _ _ _ _ _ _ _
            (Or.inr (Or.inl (fun hc => by cases hc)))]
        · exact normalizeValuesForMonth_congr _ d ch m Series.forecast C
            (length_normalizeValuesForMonth ..)
            (fun j hj => getV_normalizeValuesForMonth_other _ _ _ _ _ _ _ _
              (Or.inr (Or.inl (fun hc => by cases hc)))) i hi
      · have hmne : m ≠ mo := fun hc => hmonin (hc ▸ hmrest)
        rw [getV_normalizeGroupMonths_mem C ch rest _ hrestnd m hmrest t ht
          i hi]
        refine normalizeValuesForMonth_congr _ d ch m t C ?_ ?_ i hi
        · rw [length_normalizeValuesForMonth, length_normalizeValuesForMonth]
        · intro j hj
          rw [getV_normalizeValuesForMonth_other _ _ _ _ _ _ _ _
              (Or.inr (Or.inr hmne)),
            getV_normalizeValuesForMonth_other _ _ _ _ _ _ _ _
              (Or.inr (Or.inr hmne))]

/-! ## The per-level group loop -/

theorem length_groupsFold (months : List String) (C : ℚ) :
    ∀ (groups : List (List ℕ)) (d : List Entry),
      (groups.foldl (normalizeGroupMonths months C) d).length = d.length
  | [], _ => rfl
  | g0 :: rest, d => by
      rw [List.foldl_cons, length_groupsFold months C rest _,
        length_normalizeGroupMonths]

theorem path_groupsFold (months : List String) (C : ℚ) :
    ∀ (groups : List (List ℕ)) (d : List Entry) (j : ℕ),
      (entryAt (groups.foldl (normalizeGroupMonths months C) d) j).path =
        (entryAt d j).path
  | [], _, _ => rfl
  | g0 :: rest, d, j => by
      rw [List.foldl_cons, path_groupsFold months C rest _ j,
        path_normalizeGroupMonths]

theorem getV_groupsFold_other (months : List String) (C : ℚ) :
    ∀ (groups : List (List ℕ)) (d : List Entry) (j : ℕ) (s : Series)
      (m : String),
      ((∀ g ∈ groups, j ∉ g) ∨ s = Series.rel ∨ m ∉ months) →
      getV (groups.foldl (normalizeGroupMonths months C) d) j s m =
        getV d j s m
  | [], _, _, _, _, _ => rfl
  | g0 :: rest, d, j, s, m, h => by
      rw [List.foldl_cons]
      have hrest : (∀ g ∈ rest, j ∉ g) ∨ s = Series.rel ∨ m ∉ months := by
        rcases h with h | h
        · exact Or.inl (fun g hg => h g (List.mem_cons_of_mem _ hg))
        · exact Or.inr h
      have hg0 : j ∉ g0 ∨ s = Series.rel ∨ m ∉ months := by
        rcases h with h | h
        · exact Or.inl (h g0 (List.mem_cons_self ..))
        · exact Or.inr h
      rw [getV_groupsFold_other months C rest _ j s m hrest,
        getV_normalizeGroupMonths_other C g0 months d j s m hg0]

theorem getV_groupsFold_mem (months : List String) (C : ℚ)
    (hmnd : months.Nodup) :
    ∀ (groups : List (List ℕ)) (d : List Entry) (g : List ℕ),
      groups.Pairwise (fun g1 g2 => ∀ x ∈ g1, x ∉ g2) →
      g ∈ groups → ∀ i ∈ g, ∀ (t : Series),
      (t = Series.plan ∨ t = Series.forecast) → ∀ m ∈ months,
      getV (groups.foldl (normalizeGroupMonths months C) d) i t m =
        getV (normalizeValuesForMonth d g m t C) i t m
  | [], _, g, _, hg, _, _, _, _, _, _ => absurd hg (List.not_mem_nil g)
  | g0 :: rest, d, g, hdisj, hg, i, hi, t, ht, m, hm => by
      rw [List.foldl_cons]
      rcases List.pairwise_cons.mp hdisj with ⟨hhead, htail⟩
      rcases List.mem_cons.mp hg with rfl | hgrest
      · have hnot : ∀ g2 ∈ rest, i ∉ g2 := fun g2 hg2 => hhead g2 hg2 i hi
        rw [getV_groupsFold_other months C rest _ i t m (Or.inl hnot)]
        exact getV_normalizeGroupMonths_mem C g months d hmnd m hm t ht i hi
      · have hnotg0 : ∀ j ∈ g, j ∉ g0 := by
          intro j hj hjg0
          exact hhead g hgrest j hjg0 hj
        rw [getV_groupsFold_mem months C hmnd rest _ g htail hgrest i hi t
          ht m hm]
        refine normalizeValuesForMonth_congr _ d g m t C ?_ ?_ i hi
        · rw [length_normalizeGroupMonths]
        · intro j hj
          exact getV_normalizeGroupMonths_other C g0 months d j t m
            (Or.inl (hnotg0 j hj))

/-! ## `processLevel`: per-level outcome -/

/-- The group an entry at `level` is normalized in: the whole level for
`level = 1`, the set of level entries sharing its parent key otherwise. -/
def groupFor (data : List Entry) (level : ℕ) (i : ℕ) : List ℕ :=
  if level = 1 then entriesAtLevelIdx data 1
  else (entriesAtLevelIdx data level).filter (fun j =>
    parentKey (entryAt data j) == parentKey (entryAt data i))

theorem length_processLevel (months : List String) (C : ℚ)
    (data : List Entry) (level : ℕ) :
    (processLevel months C data level).length = data.length :=
  length_groupsFold months C _ data

theorem path_processLevel (months : List String) (C : ℚ)
    (data : List Entry) (level : ℕ) (j : ℕ) :
    (entryAt (processLevel months C data level) j).path =
      (entryAt data j).path :=
  path_groupsFold months C _ data j

theorem samePaths_processLevel (months : List String) (C : ℚ)
    (data : List Entry) (level : ℕ) :
    SamePaths (processLevel months C data level) data :=
  ⟨length_processLevel .., fun j => path_processLevel months C data level j⟩

theorem mem_levelGroups_at_level (data : List Entry) (level : ℕ)
    (g : List ℕ) (hg : g ∈ levelGroups data level) :
    ∀ j ∈ g, j < data.length ∧ (entryAt data j).path.length = level := by
  intro j hj
  unfold levelGroups at hg
  split at hg
  · rcases List.mem_singleton.mp hg with rfl
    rename_i hlvl
    rw [hlvl] at hj ⊢
    exact (mem_entriesAtLevelIdx data 1 j).mp hj
  · exact (mem_entriesAtLevelIdx data level j).mp
      (groupByKey_mem_sub data _ g hg j hj)

theorem getV_processLevel_other (months : List String) (C : ℚ)
    (data : List Entry) (level : ℕ) (j : ℕ) (s : Series) (m : String)
    (h : (entryAt data j).path.length ≠ level ∨ s = Series.rel ∨
      m ∉ months) :
    getV (processLevel months C data level) j s m = getV data j s m := by
  apply getV_groupsFold_other
  rcases h with h | h
  · refine Or.inl (fun g hg hjg => ?_)
    exact h (mem_levelGroups_at_level data level g hg j hjg).2
  · exact Or.inr h

theorem levelGroups_disjoint (data : List Entry) (level : ℕ) :
    (levelGroups data level).Pairwise (fun g1 g2 => ∀ x ∈ g1, x ∉ g2) := by
  unfold levelGroups
  split
  · exact List.pairwise_singleton ..
  · exact groupByKey_disjoint data _

theorem groupFor_mem_levelGroups (data : List Entry) (level : ℕ) (i : ℕ)
    (hi : i < data.length)
    (hlen : (entryAt data i).path.length = level) :
    groupFor data level i ∈ levelGroups data level ∧
      i ∈ groupFor data level i := by
  unfold groupFor levelGroups
  by_cases h1 : level = 1
  · subst h1
    rw [if_pos rfl, if_pos rfl]
    exact ⟨List.mem_singleton_self _,
      (mem_entriesAtLevelIdx data 1 i).mpr ⟨hi, hlen⟩⟩
  · rw [if_neg h1, if_neg h1]
    have hil : i ∈ entriesAtLevelIdx data level :=
      (mem_entriesAtLevelIdx data level i).mpr ⟨hi, hlen⟩
    obtain ⟨g, hg, hig⟩ := groupByKey_cover data _ i hil
    obtain ⟨i1, hi1, hgeq⟩ := groupByKey_eq_filter data _ g hg
    have hkey : parentKey (entryAt data i) = parentKey (entryAt data i1) := by
      have := List.of_mem_filter (hgeq ▸ hig)
      simpa using this
    have hsame : (entriesAtLevelIdx data level).filter (fun j =>
        parentKey (entryAt data j) == parentKey (entryAt data i)) = g := by
      rw [hgeq]
      exact List.filter_congr (fun j _ => by rw [hkey])
    rw [hsame]
    exact ⟨hg, hig⟩

theorem getV_processLevel_mem (months : List String) (C : ℚ)
    (data : List Entry) (level : ℕ) (i : ℕ) (hmnd : months.Nodup)
    (hi : i < data.length) (hlen : (entryAt data i).path.length = level)
    (t : Series) (ht : t = Series.plan ∨ t = Series.forecast) (m : String)
    (hm : m ∈ months) :
    getV (processLevel months C data level) i t m =
      getV (normalizeValuesForMonth data (groupFor data level i) m t C)
        i t m := by
  obtain ⟨hg, hig⟩ := groupFor_mem_levelGroups data level i hi hlen
  exact getV_groupsFold_mem months C hmnd _ data _
    (levelGroups_disjoint data level) hg i hig t ht m hm

theorem nodup_groupFor (data : List Entry) (level : ℕ) (i : ℕ) :
    (groupFor data level i).Nodup := by
  unfold groupFor
  split
  · exact nodup_entriesAtLevelIdx ..
  · exact (nodup_entriesAtLevelIdx ..).filter _

theorem mem_groupFor_valid (data : List Entry) (level : ℕ) (i : ℕ) :
    ∀ j ∈ groupFor data level i, j < data.length ∧
      (entryAt data j).path.length = level := by
  intro j hj
  unfold groupFor at hj
  split at hj
  · rename_i h1
    rw [h1]
    exact (mem_entriesAtLevelIdx data 1 j).mp hj
  · exact (mem_entriesAtLevelIdx data level j).mp (List.mem_of_mem_filter hj)

theorem groupFor_congr (d1 d2 : List Entry) (h : SamePaths d1 d2)
    (level : ℕ) (i : ℕ) : groupFor d1 level i = groupFor d2 level i := by
  unfold groupFor
  by_cases h1 : level = 1
  · rw [if_pos h1, if_pos h1, entriesAtLevelIdx_congr d1 d2 h]
  · rw [if_neg h1, if_neg h1, entriesAtLevelIdx_congr d1 d2 h]
    exact List.filter_congr (fun j _ => by
      rw [parentKey_congr d1 d2 h.2 j, parentKey_congr d1 d2 h.2 i])

/-! ## The outer level loop -/

theorem length_levelsFold (months : List String) (C : ℚ) :
    ∀ (lvls : List ℕ) (d : List Entry),
      (lvls.foldl (fun d2 lvl => processLevel months C d2 (lvl + 1))
        d).length = d.length
  | [], _ => rfl
  | lvl0 :: rest, d => by
      rw [List.foldl_cons, length_levelsFold months C rest _,
        length_processLevel]

theorem path_levelsFold (months : List String) (C : ℚ) :
    ∀ (lvls : List ℕ) (d : List Entry) (j : ℕ),
      (entryAt (lvls.foldl (fun d2 lvl => processLevel months C d2 (lvl + 1))
        d) j).path = (entryAt d j).path
  | [], _, _ => rfl
  | lvl0 :: rest, d, j => by
      rw [List.foldl_cons, path_levelsFold months C rest _ j,
        path_processLevel]

theorem getV_levelsFold_other (months : List String) (C : ℚ) :
    ∀ (lvls : List ℕ) (d : List Entry) (j : ℕ) (s : Series) (m : String),
      (s = Series.rel ∨ m ∉ months ∨
        ∀ lvl ∈ lvls, (entryAt d j).path.length ≠ lvl + 1) →
      getV (lvls.foldl (fun d2 lvl => processLevel months C d2 (lvl + 1)) d)
          j s m = getV d j s m
  | [], _, _, _, _, _ => rfl
  | lvl0 :: rest, d, j, s, m, h => by
      rw [List.foldl_cons]
      have hstep : (entryAt d j).path.length ≠ lvl0 + 1 ∨ s = Series.rel ∨
          m ∉ months := by
        rcases h with h | h | h
        · exact Or.inr (Or.inl h)
        · exact Or.inr (Or.inr h)
        · exact Or.inl (h lvl0 (List.mem_cons_self ..))
      have hrest : s = Series.rel ∨ m ∉ months ∨
          ∀ lvl ∈ rest, (entryAt (processLevel months C d (lvl0 + 1))
            j).path.length ≠ lvl + 1 := by
        rcases h with h | h | h
        · exact Or.inl h
        · exact Or.inr (Or.inl h)
        · refine Or.inr (Or.inr (fun lvl hl => ?_))
          rw [path_processLevel]
          exact h lvl (List.mem_cons_of_mem _ hl)
      rw [getV_levelsFold_other months C rest _ j s m hrest,
        getV_processLevel_other months C d (lvl0 + 1) j s m hstep]

theorem getV_levelsFold_mem (months : List String) (C : ℚ)
    (hmnd : months.Nodup) :
    ∀ (lvls : List ℕ) (d : List Entry) (i : ℕ) (t : Series) (m : String),
      lvls.Nodup → (t = Series.plan ∨ t = Series.forecast) → m ∈ months →
      i < d.length → 1 ≤ (entryAt d i).path.length →
      ((entryAt d i).path.length - 1) ∈ lvls →
      getV (lvls.foldl (fun d2 lvl => processLevel months C d2 (lvl + 1)) d)
          i t m =
        getV (normalizeValuesForMonth d
          (groupFor d ((entryAt d i).path.length) i) m t C) i t m
  | [], _, i, _, _, _, _, _, _, _, hmem => absurd hmem (List.not_mem_nil _)
  | lvl0 :: rest, d, i, t, m, hlnd, ht, hm, hi, hge1, hmem => by
      rw [List.foldl_cons]
      have hlvl0nin : lvl0 ∉ rest := (List.nodup_cons.mp hlnd).1
      by_cases hcase : (entryAt d i).path.length - 1 = lvl0
      · have hlvl : (entryAt d i).path.length = lvl0 + 1 := by omega
        have hframe : getV (rest.foldl
            (fun d2 lvl => processLevel months C d2 (lvl + 1))
            (processLevel months C d (lvl0 + 1))) i t m =
            getV (processLevel months C d (lvl0 + 1)) i t m := by
          apply getV_levelsFold_other
          refine Or.inr (Or.inr (fun lvl hl => ?_))
          rw [path_processLevel, hlvl]
          have : lvl ≠ lvl0 := fun hc => hlvl0nin (hc ▸ hl)
          omega
        rw [hframe, hlvl]
        exact getV_processLevel_mem months C d (lvl0 + 1) i hmnd hi hlvl
          t ht m hm
      · have hmemrest : (entryAt d i).path.length - 1 ∈ rest := by
          rcases List.mem_cons.mp hmem with hc | hc
          · exact absurd hc hcase
          · exact hc
        have hsp : SamePaths (processLevel months C d (lvl0 + 1)) d :=
          samePaths_processLevel ..
        have hIH := getV_levelsFold_mem months C hmnd rest
          (processLevel months C d (lvl0 + 1)) i t m
          (List.nodup_cons.mp hlnd).2 ht hm
          (by rw [length_processLevel]; exact hi)
          (by rw [path_processLevel]; exact hge1)
          (by rw [path_processLevel]; exact hmemrest)
        rw [hIH, path_processLevel,
          groupFor_congr _ d hsp ((entryAt d i).path.length) i]
        have hnlvl : (entryAt d i).path.length ≠ lvl0 + 1 := by omega
        refine normalizeValuesForMonth_congr _ d _ m t C hsp.1 ?_ i
          (groupFor_mem_levelGroups d _ i hi rfl).2
        intro j hj
        apply getV_processLevel_other
        refine Or.inl ?_
        rw [(mem_groupFor_valid d _ i j hj).2]
        exact hnlvl

/-! ## Shape of freshly sampled values -/

theorem setSlot_self (vals : Series → String → JSVal) (s : Series)
    (m : String) (v : JSVal) : setSlot vals s m v s m = v := by
  simp [setSlot]

theorem setSlot_other (vals : Series → String → JSVal) (s : Series)
    (m : String) (v : JSVal) (s2 : Series) (m2 : String)
    (h : s2 ≠ s ∨ m2 ≠ m) : setSlot vals s m v s2 m2 = vals s2 m2 := by
  unfold setSlot
  rw [if_neg]
  rintro ⟨rfl, rfl⟩
  rcases h with h | h <;> exact h rfl

/-- What one month's sampling writes: `plan` a scaled-floor draw over the
range, `forecast` the rounded ±5% perturbation of `plan`, `rel` (when
requested) a draw in `[1, 30]`. -/
def SampledAt (ranges : ValueRanges) (includeRel : Bool)
    (vals : Series → String → JSVal) (m : String) : Prop :=
  ∃ r1 r2 : ℚ, 0 ≤ r1 ∧ r1 < 1 ∧ 0 ≤ r2 ∧ r2 < 1 ∧
    vals Series.plan m =
      JSVal.num ((⌊r1 * (ranges.max - ranges.min + 1)⌋ : ℤ) + ranges.min) ∧
    vals Series.forecast m = JSVal.num (JSVal.jsRoundRat
      (((⌊r1 * (ranges.max - ranges.min + 1)⌋ : ℤ) + ranges.min) *
        (1 + (r2 * (1 / 10) - 1 / 20)))) ∧
    (includeRel = true → ∃ r3 : ℚ, 0 ≤ r3 ∧ r3 < 1 ∧
      vals Series.rel m = JSVal.num ((⌊r3 * 30⌋ : ℤ) + 1))

theorem genValuesLoop_untouched (ranges : ValueRanges) (includeRel : Bool)
    (rnd : RandStream) :
    ∀ (remaining : List String) (vals : Series → String → JSVal) (k : ℕ)
      (s : Series) (m : String), m ∉ remaining →
      (genValuesLoop ranges includeRel rnd remaining vals k).1 s m =
        vals s m
  | [], _, _, _, _, _ => rfl
  | mo :: rest, vals, k, s, m, hm => by
      have hmo : m ≠ mo := fun hc => hm (hc ▸ List.mem_cons_self ..)
      have hrest : m ∉ rest := fun hc => hm (List.mem_cons_of_mem _ hc)
      rw [genValuesLoop]
      split
      · rw [genValuesLoop_untouched ranges includeRel rnd rest _ _ s m hrest,
          setSlot_other _ _ _ _ _ _ (Or.inr hmo),
          setSlot_other _ _ _ _ _ _ (Or.inr hmo),
          setSlot_other _ _ _ _ _ _ (Or.inr hmo)]
      · rw [genValuesLoop_untouched ranges includeRel rnd rest _ _ s m hrest,
          setSlot_other _ _ _ _ _ _ (Or.inr hmo),
          setSlot_other _ _ _ _ _ _ (Or.inr hmo)]

theorem genValuesLoop_sampledAt (ranges : ValueRanges) (includeRel : Bool)
    (rnd : RandStream) (hstream : ValidStream rnd) :
    ∀ (remaining : List String) (vals : Series → String → JSVal) (k : ℕ)
      (m : String), m ∈ remaining →
      SampledAt ranges includeRel
        ((genValuesLoop ranges includeRel rnd remaining vals k).1) m
  | [], _, _, m, hm => absurd hm (List.not_mem_nil m)
  | mo :: rest, vals, k, m, hm => by
      by_cases hrest : m ∈ rest
      · rw [genValuesLoop]
        split
        · exact genValuesLoop_sampledAt ranges includeRel rnd hstream
            rest _ _ m hrest
        · exact genValuesLoop_sampledAt ranges includeRel rnd hstream
            rest _ _ m hrest
      · have hmo : m = mo := by
          rcases List.mem_cons.mp hm with h | h
          · exact h
          · exact absurd h hrest
        subst hmo
        rw [genValuesLoop]
        split
        · rename_i hrel
          refine ⟨rnd k, rnd (k + 1), (hstream k).1, (hstream k).2,
            (hstream (k + 1)).1, (hstream (k + 1)).2, ?_, ?_, ?_⟩
          · rw [genValuesLoop_untouched ranges includeRel rnd rest _ _ _ _
              hrest,
              setSlot_other _ _ _ _ _ _ (Or.inl (fun hc => by cases hc)),
              setSlot_other _ _ _ _ _ _ (Or.inl (fun hc => by cases hc)),
              setSlot_self]
          · rw [genValuesLoop_untouched ranges includeRel rnd rest _ _ _ _
              hrest,
              setSlot_other _ _ _ _ _ _ (Or.inl (fun hc => by cases hc)),
              setSlot_self]
          · intro _
            refine ⟨rnd (k + 2), (hstream (k + 2)).1, (hstream (k + 2)).2,
              ?_⟩
            rw [genValuesLoop_untouched ranges includeRel rnd rest _ _ _ _
              hrest, setSlot_self]
        · rename_i hrel
          refine ⟨rnd k, rnd (k + 1), (hstream k).1, (hstream k).2,
            (hstream (k + 1)).1, (hstream (k + 1)).2, ?_, ?_, ?_⟩
          · rw [genValuesLoop_untouched ranges includeRel rnd rest _ _ _ _
              hrest,
              setSlot_other _ _ _ _ _ _ (Or.inl (fun hc => by cases hc)),
              setSlot_self]
          · rw [genValuesLoop_untouched ranges includeRel rnd rest _ _ _ _
              hrest, setSlot_self]
          · intro hc
            exact absurd hc hrel
        
theorem generateValues_sampledAt (months : List String)
    (ranges : ValueRanges) (includeRel : Bool) (rnd : RandStream)
    (hstream : ValidStream rnd) (k : ℕ) (m : String) (hm : m ∈ months) :
    SampledAt ranges includeRel
      ((generateValues months ranges includeRel rnd k).1) m :=
  genValuesLoop_sampledAt ranges includeRel rnd hstream months _ k m hm

/-! ## Invariants of the generated entries -/

/-- Every entry a `generatePaths` subtree produces has a path of the right
depth range built from the level label sets, and freshly sampled values. -/
theorem genPaths_entries (levelValues : List (List String))
    (months : List String) (ranges : ValueRanges) (includeRel : Bool)
    (rnd : RandStream) (hstream : ValidStream rnd) :
    ∀ (currentPath : List String) (levelIndex : ℕ) (vals : List String)
      (k : ℕ),
      currentPath.length = levelIndex →
      (∀ s ∈ vals, s ∈ levelValues.getD levelIndex []) →
      (∀ s ∈ currentPath, ∃ li, li < levelValues.length ∧
        s ∈ levelValues.getD li []) →
      levelIndex < levelValues.length →
      ∀ e ∈ (genPaths levelValues months ranges includeRel rnd currentPath
        levelIndex vals k).1,
        levelIndex + 1 ≤ e.path.length ∧
        e.path.length ≤ levelValues.length ∧
        (∀ s ∈ e.path, ∃ li, li < levelValues.length ∧
          s ∈ levelValues.getD li []) ∧
        ∀ m ∈ months, SampledAt ranges includeRel e.values m
  | _, _, [], _ => by
      intro _ _ _ _ e he
      rw [genPaths] at he
      cases he
  | currentPath, levelIndex, value :: restVals, k => by
      intro hcplen hvals hprov hlt e he
      rw [genPaths] at he
      simp only [List.mem_cons, List.mem_append] at he
      have hprovnew : ∀ s ∈ currentPath ++ [value],
          ∃ li, li < levelValues.length ∧ s ∈ levelValues.getD li [] := by
        intro s hs
        rcases List.mem_append.mp hs with hs | hs
        · exact hprov s hs
        · rcases List.mem_singleton.mp hs with rfl
          exact ⟨levelIndex, hlt, hvals s (List.mem_cons_self ..)⟩
      rcases he with rfl | he | he
      · refine ⟨?_, ?_, hprovnew, ?_⟩
        · simp [hcplen]
        · simp only [List.length_append, List.length_singleton, hcplen]
          omega
        · intro m hm
          exact generateValues_sampledAt months ranges includeRel rnd
            hstream k m hm
      · -- entry of the deeper subtree
        by_cases hdeep : levelIndex + 1 < levelValues.length
        · rw [dif_pos hdeep] at he
          have := genPaths_entries levelValues months ranges includeRel rnd
            hstream (currentPath ++ [value]) (levelIndex + 1)
            (levelValues.getD (levelIndex + 1) []) _
            (by simp [hcplen]) (fun s hs => hs) hprovnew hdeep e he
          exact ⟨by omega, this.2.1, this.2.2.1, this.2.2.2⟩
        · rw [dif_neg hdeep] at he
          cases he
      · exact genPaths_entries levelValues months ranges includeRel rnd
          hstream currentPath levelIndex restVals _ hcplen
          (fun s hs => hvals s (List.mem_cons_of_mem _ hs)) hprov hlt e he
termination_by _ levelIndex vals _ => (levelValues.length - levelIndex, vals.length)
decreasing_by
  · apply Prod.Lex.left
    omega
  · apply Prod.Lex.right
    simp

theorem genLevel1_entries (months : List String) (ranges : ValueRanges)
    (includeRel : Bool) (rnd : RandStream) (hstream : ValidStream rnd)
    (labels : List String) :
    ∀ (roots : List String) (k : ℕ), (∀ s ∈ roots, s ∈ labels) →
      ∀ e ∈ (genLevel1 months ranges includeRel rnd roots k).1,
        e.path.length = 1 ∧ (∀ s ∈ e.path, s ∈ labels) ∧
        ∀ m ∈ months, SampledAt ranges includeRel e.values m
  | [], _, _ => by
      intro e he
      cases he
  | value :: rest, k, hroots => by
      intro e he
      rcases List.mem_cons.mp he with rfl | he2
      · refine ⟨rfl, ?_, ?_⟩
        · intro s hs
          rcases List.mem_singleton.mp hs with rfl
          exact hroots s (List.mem_cons_self ..)
        · intro m hm
          exact generateValues_sampledAt months ranges includeRel rnd
            hstream k m hm
      · exact genLevel1_entries months ranges includeRel rnd hstream labels
          rest _ (fun s hs => hroots s (List.mem_cons_of_mem _ hs)) e he2

theorem genFromRoots_entries (levelValues : List (List String))
    (months : List String) (ranges : ValueRanges) (includeRel : Bool)
    (rnd : RandStream) (hstream : ValidStream rnd)
    (hlv : 1 ≤ levelValues.length) :
    ∀ (roots : List String) (k : ℕ),
      (∀ s ∈ roots, s ∈ levelValues.getD 0 []) →
      ∀ e ∈ (genFromRoots levelValues months ranges includeRel rnd
        roots k).1,
        2 ≤ e.path.length ∧ e.path.length ≤ levelValues.length ∧
        (∀ s ∈ e.path, ∃ li, li < levelValues.length ∧
          s ∈ levelValues.getD li []) ∧
        ∀ m ∈ months, SampledAt ranges includeRel e.values m
  | [], _, _ => by
      intro e he
      cases he
  | value :: rest, k, hroots => by
      intro e he
      rcases List.mem_append.mp he with he2 | he2
      · by_cases hdeep : 1 < levelValues.length
        · rw [if_pos hdeep] at he2
          have := genPaths_entries levelValues months ranges includeRel rnd
            hstream [value] 1 (levelValues.getD 1 []) k rfl
            (fun s hs => hs)
            (fun s hs => by
              rcases List.mem_singleton.mp hs with rfl
              exact ⟨0, by omega, hroots s (List.mem_cons_self ..)⟩)
            hdeep e he2
          exact ⟨this.1, this.2.1, this.2.2.1, this.2.2.2⟩
        · rw [if_neg hdeep] at he2
          cases he2
      · exact genFromRoots_entries levelValues months ranges includeRel rnd
          hstream hlv rest _
          (fun s hs => hroots s (List.mem_cons_of_mem _ hs)) e he2

/-- Every entry produced by `generateEntriesForAllLevels` has a path of
length between 1 and the number of levels, labels drawn from the level
sets, and freshly sampled values at every configured month. -/
theorem generateEntriesForAllLevels_entries
    (levelValues : List (List String)) (months : List String)
    (ranges : ValueRanges) (includeRel : Bool) (rnd : RandStream)
    (hstream : ValidStream rnd) (hlv : 1 ≤ levelValues.length) (k : ℕ) :
    ∀ e ∈ (generateEntriesForAllLevels levelValues months ranges includeRel
      rnd k).1,
      1 ≤ e.path.length ∧ e.path.length ≤ levelValues.length ∧
      (∀ s ∈ e.path, ∃ li, li < levelValues.length ∧
        s ∈ levelValues.getD li []) ∧
      ∀ m ∈ months, SampledAt ranges includeRel e.values m := by
  intro e he
  unfold generateEntriesForAllLevels at he
  simp only at he
  rcases List.mem_append.mp he with he2 | he2
  · have := genLevel1_entries months ranges includeRel rnd hstream
      (levelValues.getD 0 []) (levelValues.getD 0 []) k (fun s hs => hs)
      e he2
    refine ⟨by omega, by omega, ?_, this.2.2⟩
    intro s hs
    exact ⟨0, by omega, this.2.1 s hs⟩
  · have := genFromRoots_entries levelValues months ranges includeRel rnd
      hstream hlv (levelValues.getD 0 []) _ (fun s hs => hs) e he2
    exact ⟨by omega, this.2.1, this.2.2.1, this.2.2.2⟩

/-! ## Entry counts -/

/-- Entries produced below one chosen node, one label per remaining level:
`0` for no remaining levels, `|L| * (1 + subtreeCount rest)` otherwise. -/
def subtreeCount : List (List String) → ℕ
  | [] => 0
  | lvl :: rest => lvl.length * (1 + subtreeCount rest)

/-- The claimed count `Σ_{k=1..d} Π_{i=1..k} |levels[i]|`, written over
`List.range`: the `kk`-th summand is the product of the sizes of the first
`kk + 1` level sets. -/
def levelCountFormula (levelValues : List (List String)) : ℕ :=
  ((List.range levelValues.length).map (fun kk =>
    ((levelValues.take (kk + 1)).map List.length).prod)).sum

theorem genPaths_count (levelValues : List (List String))
    (months : List String) (ranges : ValueRanges) (includeRel : Bool)
    (rnd : RandStream) :
    ∀ (currentPath : List String) (levelIndex : ℕ) (vals : List String)
      (k : ℕ),
      (genPaths levelValues months ranges includeRel rnd currentPath
        levelIndex vals k).1.length =
        vals.length * (1 + subtreeCount (levelValues.drop (levelIndex + 1)))
  | _, _, [], _ => by
      rw [genPaths]
      simp
  | currentPath, levelIndex, value :: restVals, k => by
      rw [genPaths]
      simp only [List.length_cons, List.length_append]
      rw [genPaths_count levelValues months ranges includeRel rnd
        currentPath levelIndex restVals _]
      by_cases hdeep : levelIndex + 1 < levelValues.length
      · rw [dif_pos hdeep]
        rw [genPaths_count levelValues months ranges includeRel rnd _
          (levelIndex + 1) _ _]
        have hdrop : levelValues.drop (levelIndex + 1) =
            levelValues.getD (levelIndex + 1) [] ::
              levelValues.drop (levelIndex + 1 + 1) := by
          rw [List.getD_eq_getElem _ _ hdeep]
          exact List.drop_eq_getElem_cons hdeep
        rw [hdrop, show subtreeCount (levelValues.getD (levelIndex + 1) [] ::
          levelValues.drop (levelIndex + 1 + 1)) =
            (levelValues.getD (levelIndex + 1) []).length *
              (1 + subtreeCount (levelValues.drop (levelIndex + 1 + 1)))
          from rfl]
        ring
      · rw [dif_neg hdeep]
        rw [show levelValues.drop (levelIndex + 1) = [] from
          List.drop_eq_nil_of_le (by omega)]
        rw [show subtreeCount [] = 0 from rfl]
        simp only [List.length_nil]
        ring
termination_by _ levelIndex vals _ => (levelValues.length - levelIndex, vals.length)
decreasing_by
  all_goals first
    | (apply Prod.Lex.right
       simp)
    | (apply Prod.Lex.left
       omega)

theorem genLevel1_count (months : List String) (ranges : ValueRanges)
    (includeRel : Bool) (rnd : RandStream) :
    ∀ (roots : List String) (k : ℕ),
      (genLevel1 months ranges includeRel rnd roots k).1.length =
        roots.length
  | [], _ => rfl
  | value :: rest, k => by
      show (genLevel1 months ranges includeRel rnd rest _).1.length + 1 = _
      rw [genLevel1_count months ranges includeRel rnd rest _]
      rfl

theorem genFromRoots_count (levelValues : List (List String))
    (months : List String) (ranges : ValueRanges) (includeRel : Bool)
    (rnd : RandStream) :
    ∀ (roots : List String) (k : ℕ),
      (genFromRoots levelValues months ranges includeRel rnd
        roots k).1.length =
        roots.length * subtreeCount (levelValues.drop 1)
  | [], _ => by simp [genFromRoots]
  | value :: rest, k => by
      rw [genFromRoots]
      simp only [List.length_append, List.length_cons]
      rw [genFromRoots_count levelValues months ranges includeRel rnd
        rest _]
      by_cases hdeep : 1 < levelValues.length
      · rw [if_pos hdeep, genPaths_count]
        have hdrop : levelValues.drop 1 =
            levelValues.getD 1 [] :: levelValues.drop (1 + 1) := by
          rw [List.getD_eq_getElem _ _ hdeep]
          exact List.drop_eq_getElem_cons hdeep
        rw [hdrop, show subtreeCount (levelValues.getD 1 [] ::
          levelValues.drop (1 + 1)) =
            (levelValues.getD 1 []).length *
              (1 + subtreeCount (levelValues.drop (1 + 1))) from rfl]
        ring
      · rw [if_neg hdeep]
        rw [show levelValues.drop 1 = [] from
          List.drop_eq_nil_of_le (by omega)]
        rw [show subtreeCount [] = 0 from rfl]
        simp

theorem generateEntriesForAllLevels_count (levelValues : List (List String))
    (months : List String) (ranges : ValueRanges) (includeRel : Bool)
    (rnd : RandStream) (k : ℕ) (hlv : 1 ≤ levelValues.length) :
    (generateEntriesForAllLevels levelValues months ranges includeRel rnd
      k).1.length = subtreeCount levelValues := by
  unfold generateEntriesForAllLevels
  simp only [List.length_append]
  rw [genLevel1_count, genFromRoots_count]
  have hdrop : levelValues = levelValues.getD 0 [] ::
      levelValues.drop 1 := by
    rw [List.getD_eq_getElem _ _ (by omega)]
    have := List.drop_eq_getElem_cons (l := levelValues) (n := 0) (by omega)
    simpa using this
  conv_rhs => rw [hdrop]
  rw [show subtreeCount (levelValues.getD 0 [] :: levelValues.drop 1) =
    (levelValues.getD 0 []).length *
      (1 + subtreeCount (levelValues.drop 1)) from rfl]
  ring

theorem subtreeCount_eq_formula :
    ∀ (levelValues : List (List String)),
      subtreeCount levelValues = levelCountFormula levelValues
  | [] => rfl
  | lvl :: rest => by
      rw [show subtreeCount (lvl :: rest) =
        lvl.length * (1 + subtreeCount rest) from rfl,
        subtreeCount_eq_formula rest]
      unfold levelCountFormula
      rw [List.length_cons, List.range_succ_eq_map, List.map_cons,
        List.sum_cons, List.map_map]
      have hzero : ((lvl :: rest).take (0 + 1)).map List.length = 
          [lvl.length] := rfl
      rw [hzero]
      have hmap : (List.range rest.length).map ((fun kk =>
          (((lvl :: rest).take (kk + 1)).map List.length).prod) ∘ Nat.succ) =
          (List.range rest.length).map (fun kk =>
            lvl.length * ((rest.take (kk + 1)).map List.length).prod) := by
        apply List.map_congr_left
        intro kk _
        show (((lvl :: rest).take (kk + 1 + 1)).map List.length).prod = _
        rw [List.take_succ_cons, List.map_cons, List.prod_cons]
      rw [hmap, List.sum_map_mul_left]
      simp only [List.prod_cons, List.prod_nil, mul_one]
      ring

/-! ## The `"|"`-join grouping key -/

/-- Splitting a character list at an occurrence of `'|'` is unambiguous
when the prefix is `'|'`-free. -/
theorem pipe_split : ∀ (xs1 : List Char) (ys1 : List Char) (xs2 : List Char)
    (ys2 : List Char), '|' ∉ xs1 → '|' ∉ xs2 →
    xs1 ++ '|' :: ys1 = xs2 ++ '|' :: ys2 → xs1 = xs2 ∧ ys1 = ys2
  | [], ys1, [], ys2, _, _, heq => by
      simp only [List.nil_append, List.cons.injEq] at heq
      exact ⟨rfl, heq.2⟩
  | [], ys1, c2 :: xs2, ys2, _, h2, heq => by
      simp only [List.nil_append, List.cons_append, List.cons.injEq] at heq
      exact absurd (heq.1 ▸ List.mem_cons_self c2 xs2) h2
  | c1 :: xs1, ys1, [], ys2, h1, _, heq => by
      simp only [List.cons_append, List.nil_append, List.cons.injEq] at heq
      exact absurd (heq.1.symm ▸ List.mem_cons_self c1 xs1) h1
  | c1 :: xs1, ys1, c2 :: xs2, ys2, h1, h2, heq => by
      simp only [List.cons_append, List.cons.injEq] at heq
      obtain ⟨rfl, heq2⟩ := heq
      obtain ⟨hx, hy⟩ := pipe_split xs1 ys1 xs2 ys2
        (fun hc => h1 (List.mem_cons_of_mem _ hc))
        (fun hc => h2 (List.mem_cons_of_mem _ hc)) heq2
      exact ⟨by rw [hx], hy⟩

theorem joinPipe_data_cons (s : String) (t : String) (r : List String) :
    (joinPipe (s :: t :: r)).data = s.data ++ '|' :: (joinPipe (t :: r)).data := by
  show (s ++ "|" ++ joinPipe (t :: r)).data = _
  rw [String.data_append, String.data_append,
    show ("|" : String).data = ['|'] from rfl, List.append_assoc]
  rfl

/-- On same-length lists of `'|'`-free labels, the `"|"`-join is
injective. -/
theorem joinPipe_inj : ∀ (l1 l2 : List String),
    (∀ s ∈ l1, '|' ∉ s.data) → (∀ s ∈ l2, '|' ∉ s.data) →
    l1.length = l2.length → joinPipe l1 = joinPipe l2 → l1 = l2
  | [], [], _, _, _, _ => rfl
  | [], _ :: _, _, _, hlen, _ => by cases hlen
  | _ :: _, [], _, _, hlen, _ => by cases hlen
  | [s1], [s2], _, _, _, heq => by
      rw [show joinPipe [s1] = s1 from rfl,
        show joinPipe [s2] = s2 from rfl] at heq
      rw [heq]
  | [s1], s2 :: t2 :: r2, _, _, hlen, _ => by
      simp at hlen
  | s1 :: t1 :: r1, [s2], _, _, hlen, _ => by
      simp at hlen
  | s1 :: t1 :: r1, s2 :: t2 :: r2, h1, h2, hlen, heq => by
      have hdata : (joinPipe (s1 :: t1 :: r1)).data =
          (joinPipe (s2 :: t2 :: r2)).data := by rw [heq]
      rw [joinPipe_data_cons, joinPipe_data_cons] at hdata
      obtain ⟨hs, hj⟩ := pipe_split s1.data _ s2.data _
        (h1 s1 (List.mem_cons_self ..)) (h2 s2 (List.mem_cons_self ..))
        hdata
      have hs12 : s1 = s2 := String.ext hs
      have hrest : t1 :: r1 = t2 :: r2 :=
        joinPipe_inj (t1 :: r1) (t2 :: r2)
          (fun s hs2 => h1 s (List.mem_cons_of_mem _ hs2))
          (fun s hs2 => h2 s (List.mem_cons_of_mem _ hs2))
          (by simpa using hlen) (String.ext hj)
      rw [hs12, hrest]

/-! ## Top-level normalization wrappers and sibling sets -/

theorem length_normalizeAllLevelValues (data : List Entry)
    (levelValues : List (List String)) (months : List String) (C : ℚ) :
    (normalizeAllLevelValues data levelValues months C).length =
      data.length :=
  length_levelsFold months C _ data

theorem path_normalizeAllLevelValues (data : List Entry)
    (levelValues : List (List String)) (months : List String) (C : ℚ)
    (j : ℕ) :
    (entryAt (normalizeAllLevelValues data levelValues months C) j).path =
      (entryAt data j).path :=
  path_levelsFold months C _ data j

theorem getV_normalizeAllLevelValues_other (data : List Entry)
    (levelValues : List (List String)) (months : List String) (C : ℚ)
    (j : ℕ) (s : Series) (m : String)
    (h : s = Series.rel ∨ m ∉ months) :
    getV (normalizeAllLevelValues data levelValues months C) j s m =
      getV data j s m := by
  apply getV_levelsFold_other
  rcases h with h | h
  · exact Or.inl h
  · exact Or.inr (Or.inl h)

theorem getV_normalizeAllLevelValues_mem (data : List Entry)
    (levelValues : List (List String)) (months : List String) (C : ℚ)
    (i : ℕ) (t : Series) (m : String) (hmnd : months.Nodup)
    (ht : t = Series.plan ∨ t = Series.forecast) (hm : m ∈ months)
    (hi : i < data.length) (hge1 : 1 ≤ (entryAt data i).path.length)
    (hle : (entryAt data i).path.length ≤ levelValues.length) :
    getV (normalizeAllLevelValues data levelValues months C) i t m =
      getV (normalizeValuesForMonth data
        (groupFor data ((entryAt data i).path.length) i) m t C) i t m := by
  apply getV_levelsFold_mem months C hmnd _ data i t m (List.nodup_range _)
    ht hm hi hge1
  rw [List.mem_range]
  omega

/-- The store indices of a sibling set: the entries at depth `d` whose
parent path (path minus its last element) is `p`. -/
def sibIdxs (data : List Entry) (d : ℕ) (p : List String) : List ℕ :=
  (List.range data.length).filter (fun i =>
    ((entryAt data i).path.length == d) &&
      ((entryAt data i).path.dropLast == p))

theorem mem_sibIdxs (data : List Entry) (d : ℕ) (p : List String) (i : ℕ) :
    i ∈ sibIdxs data d p ↔ i < data.length ∧
      (entryAt data i).path.length = d ∧
      (entryAt data i).path.dropLast = p := by
  unfold sibIdxs
  rw [List.mem_filter, List.mem_range]
  simp [and_assoc]

theorem sibIdxs_congr (d1 d2 : List Entry) (h : SamePaths d1 d2) (d : ℕ)
    (p : List String) : sibIdxs d1 d p = sibIdxs d2 d p := by
  unfold sibIdxs
  rw [h.1]
  exact List.filter_congr (fun j _ => by rw [h.2 j])

theorem entryAt_mem (data : List Entry) (i : ℕ) (hi : i < data.length) :
    entryAt data i ∈ data := by
  unfold entryAt
  rw [List.getD_eq_getElem _ _ hi]
  exact List.getElem_mem hi

/-- If an entry belongs to a group, the group keyed on it is the same
group. -/
theorem groupFor_eq_of_mem (data : List Entry) (level : ℕ) (i0 i : ℕ)
    (hi : i ∈ groupFor data level i0) :
    groupFor data level i = groupFor data level i0 := by
  unfold groupFor at hi ⊢
  by_cases h1 : level = 1
  · rw [if_pos h1, if_pos h1]
  · rw [if_neg h1] at hi
    rw [if_neg h1, if_neg h1]
    have hkey : parentKey (entryAt data i) = parentKey (entryAt data i0) := by
      have := List.of_mem_filter hi
      simpa using this
    exact List.filter_congr (fun j _ => by rw [hkey])

/-- With `'|'`-free labels, the sibling set of an entry coincides with the
normalizer's key-based group. -/
theorem sibIdxs_eq_groupFor (data : List Entry) (d : ℕ) (i0 : ℕ)
    (hpipe : ∀ j, j < data.length →
      ∀ s ∈ (entryAt data j).path, '|' ∉ s.data)
    (hi0 : i0 < data.length) (hd : (entryAt data i0).path.length = d)
    (hd1 : 1 ≤ d) :
    sibIdxs data d ((entryAt data i0).path.dropLast) =
      groupFor data d i0 := by
  unfold sibIdxs groupFor entriesAtLevelIdx
  by_cases h1 : d = 1
  · rw [if_pos h1]
    apply List.filter_congr
    intro j hj
    subst h1
    by_cases hlj : (entryAt data j).path.length = 1
    · have hdl : (entryAt data j).path.dropLast = [] := by
        rcases List.length_eq_one.mp hlj with ⟨a, ha⟩
        rw [ha]
        rfl
      have hdl0 : (entryAt data i0).path.dropLast = [] := by
        rcases List.length_eq_one.mp hd with ⟨a, ha⟩
        rw [ha]
        rfl
      simp [hlj, hdl, hdl0]
    · simp [hlj]
  · rw [if_neg h1, List.filter_filter]
    apply List.filter_congr
    intro j hj
    rw [List.mem_range] at hj
    by_cases hlj : (entryAt data j).path.length = d
    · simp only [hlj, beq_self_eq_true, Bool.and_true, Bool.true_and]
      by_cases hdl : (entryAt data j).path.dropLast =
          (entryAt data i0).path.dropLast
      · have hk : parentKey (entryAt data j) =
            parentKey (entryAt data i0) := by
          unfold parentKey
          rw [hdl]
        rw [show ((entryAt data j).path.dropLast ==
            (entryAt data i0).path.dropLast) = true from beq_iff_eq.mpr hdl,
          show (parentKey (entryAt data j) ==
            parentKey (entryAt data i0)) = true from beq_iff_eq.mpr hk]
      · have hkeyne : parentKey (entryAt data j) ≠
            parentKey (entryAt data i0) := by
          intro hkey
          apply hdl
          apply joinPipe_inj
          · intro s hs
            exact hpipe j hj s ((List.dropLast_sublist _).subset hs)
          · intro s hs
            exact hpipe i0 hi0 s ((List.dropLast_sublist _).subset hs)
          · rw [List.length_dropLast, List.length_dropLast, hlj, hd]
          · exact hkey
        rw [show ((entryAt data j).path.dropLast ==
            (entryAt data i0).path.dropLast) = false from
            beq_eq_false_iff_ne.mpr hdl,
          show (parentKey (entryAt data j) ==
            parentKey (entryAt data i0)) = false from
            beq_eq_false_iff_ne.mpr hkeyne]
    · rw [show ((entryAt data j).path.length == d) = false from
        beq_eq_false_iff_ne.mpr hlj]
      simp

/-! ## Positivity of sampled values over a positive range -/

theorem plan_val_ge_one (mn mx : ℚ) (hmin : 1 ≤ mn) (hrange : mn ≤ mx)
    (r1 : ℚ) (h0 : 0 ≤ r1) :
    (1 : ℚ) ≤ ((⌊r1 * (mx - mn + 1)⌋ : ℤ) : ℚ) + mn := by
  have hfloor : (0 : ℤ) ≤ ⌊r1 * (mx - mn + 1)⌋ := by
    apply Int.floor_nonneg.mpr
    apply mul_nonneg h0
    linarith
  have hcast : (0 : ℚ) ≤ ((⌊r1 * (mx - mn + 1)⌋ : ℤ) : ℚ) := by
    exact_mod_cast hfloor
  linarith

theorem forecast_val_ge_one (b : ℚ) (hb : 1 ≤ b) (r2 : ℚ) (h0 : 0 ≤ r2) :
    (1 : ℤ) ≤ JSVal.jsRoundRat (b * (1 + (r2 * (1 / 10) - 1 / 20))) := by
  unfold JSVal.jsRoundRat
  rw [Int.le_floor]
  have hv : (19 / 20 : ℚ) ≤ 1 + (r2 * (1 / 10) - 1 / 20) := by linarith
  have hv0 : (0 : ℚ) ≤ 1 + (r2 * (1 / 10) - 1 / 20) := by linarith
  have hprod : (19 / 20 : ℚ) ≤ b * (1 + (r2 * (1 / 10) - 1 / 20)) := by
    have h2 : 1 * (1 + (r2 * (1 / 10) - 1 / 20)) ≤
        b * (1 + (r2 * (1 / 10) - 1 / 20)) :=
      mul_le_mul_of_nonneg_right hb hv0
    linarith
  push_cast
  linarith

/-- A sampled `plan` or `forecast` slot over a range with `1 ≤ min ≤ max`
is a finite value that is at least 1. -/
theorem sampledAt_pos (ranges : ValueRanges) (includeRel : Bool)
    (vals : Series → String → JSVal) (m : String)
    (hs : SampledAt ranges includeRel vals m)
    (hmin : 1 ≤ ranges.min) (hrange : ranges.min ≤ ranges.max)
    (t : Series) (ht : t = Series.plan ∨ t = Series.forecast) :
    ∃ q : ℚ, vals t m = JSVal.num q ∧ 1 ≤ q := by
  obtain ⟨r1, r2, hr10, hr11, hr20, hr21, hplan, hforecast, -⟩ := hs
  rcases ht with rfl | rfl
  · exact ⟨_, hplan, plan_val_ge_one ranges.min ranges.max hmin hrange r1
      hr10⟩
  · refine ⟨_, hforecast, ?_⟩
    have := forecast_val_ge_one
      (((⌊r1 * (ranges.max - ranges.min + 1)⌋ : ℤ) : ℚ) + ranges.min)
      (plan_val_ge_one ranges.min ranges.max hmin hrange r1 hr10) r2 hr20
    exact_mod_cast this

/-! ## Dissecting a successful `generateTreeData` call -/

theorem generateTreeData_ok (cfg : Config) (rnd : RandStream)
    (out : List Entry) (hok : generateTreeData cfg rnd = Except.ok out) :
    cfg.levelValues.length ≠ 0 ∧
    (∀ lvl ∈ cfg.levelValues, lvl.length ≠ 0) ∧
    out = normalizeAllLevelValues
      (generateEntriesForAllLevels cfg.levelValues cfg.months
        cfg.valueRanges cfg.includeRel rnd 0).1
      cfg.levelValues cfg.months cfg.sumConstraint := by
  unfold generateTreeData at hok
  by_cases h1 : cfg.levelValues.length = 0
  · rw [if_pos h1] at hok
    cases hok
  · rw [if_neg h1] at hok
    by_cases h2 : (cfg.levelValues.any fun level => level.length = 0) = true
    · rw [if_pos h2] at hok
      cases hok
    · rw [if_neg h2] at hok
      simp only at hok
      refine ⟨h1, ?_, (Except.ok.injEq _ _ ▸ hok).symm⟩
      intro lvl hlvl hlen
      apply h2
      rw [List.any_eq_true]
      exact ⟨lvl, hlvl, by simp [hlen]⟩

/-- The sibling-sum invariant, assembled end to end: over a successful
`generateTreeData` call with a positive sampling range, pairwise-distinct
months and `'|'`-free labels, every sibling set's `plan` and `forecast`
values sum exactly to the constraint at every configured month. -/
theorem sum_invariant_assembled (cfg : Config) (rnd : RandStream)
    (out : List Entry) (hok : generateTreeData cfg rnd = Except.ok out)
    (hstream : ValidStream rnd)
    (hmin : 1 ≤ cfg.valueRanges.min)
    (hrange : cfg.valueRanges.min ≤ cfg.valueRanges.max)
    (hmonths : cfg.months.Nodup)
    (hpipe : ∀ lvl ∈ cfg.levelValues, ∀ s ∈ lvl, '|' ∉ s.data)
    (d : ℕ) (p : List String) (t : Series)
    (ht : t = Series.plan ∨ t = Series.forecast)
    (m : String) (hm : m ∈ cfg.months)
    (hne : sibIdxs out d p ≠ []) :
    sumSlots out (sibIdxs out d p) t m = JSVal.num cfg.sumConstraint := by
  obtain ⟨hL0, hLne, hout⟩ := generateTreeData_ok cfg rnd out hok
  set raw := (generateEntriesForAllLevels cfg.levelValues cfg.months
    cfg.valueRanges cfg.includeRel rnd 0).1 with hraw
  have hent := generateEntriesForAllLevels_entries cfg.levelValues
    cfg.months cfg.valueRanges cfg.includeRel rnd hstream (by omega) 0
  have hsp : SamePaths out raw := by
    rw [hout]
    exact ⟨length_normalizeAllLevelValues ..,
      fun j => path_normalizeAllLevelValues ..⟩
  have hsib : sibIdxs out d p = sibIdxs raw d p :=
    sibIdxs_congr out raw hsp d p
  rw [hsib] at hne
  obtain ⟨i0, hi0mem⟩ := List.exists_mem_of_ne_nil _ hne
  rw [mem_sibIdxs] at hi0mem
  obtain ⟨hi0len, hi0d, hi0p⟩ := hi0mem
  have hfact : ∀ (i : ℕ), i < raw.length →
      1 ≤ (entryAt raw i).path.length ∧
      (entryAt raw i).path.length ≤ cfg.levelValues.length ∧
      (∀ s ∈ (entryAt raw i).path, ∃ li, li < cfg.levelValues.length ∧
        s ∈ cfg.levelValues.getD li []) ∧
      ∀ m2 ∈ cfg.months,
        SampledAt cfg.valueRanges cfg.includeRel (entryAt raw i).values m2 :=
    fun i hi => hent (entryAt raw i) (entryAt_mem raw i hi)
  have hd1 : 1 ≤ d := by rw [← hi0d]; exact (hfact i0 hi0len).1
  have hdL : d ≤ cfg.levelValues.length := by
    rw [← hi0d]
    exact (hfact i0 hi0len).2.1
  have hpipe2 : ∀ j, j < raw.length →
      ∀ s ∈ (entryAt raw j).path, '|' ∉ s.data := by
    intro j hj s hs
    obtain ⟨li, hli, hsl⟩ := (hfact j hj).2.2.1 s hs
    refine hpipe (cfg.levelValues.getD li []) ?_ s hsl
    rw [List.getD_eq_getElem _ _ hli]
    exact List.getElem_mem hli
  have hpeq : p = (entryAt raw i0).path.dropLast := hi0p.symm
  rw [hsib, hpeq, sibIdxs_eq_groupFor raw d i0 hpipe2 hi0len hi0d hd1]
  have hgvalid := mem_groupFor_valid raw d i0
  have hgne : groupFor raw d i0 ≠ [] := by
    intro hc
    have hmem := (groupFor_mem_levelGroups raw d i0 hi0len hi0d).2
    rw [hc] at hmem
    cases hmem
  have hgnd : (groupFor raw d i0).Nodup := nodup_groupFor raw d i0
  have hfin : ∀ i ∈ groupFor raw d i0,
      ∃ q : ℚ, getV raw i t m = JSVal.num q ∧ 1 ≤ q := by
    intro i hi
    exact sampledAt_pos cfg.valueRanges cfg.includeRel
      (entryAt raw i).values m
      ((hfact i (hgvalid i hi).1).2.2.2 m hm) hmin hrange t ht
  have hS : groupSum raw (groupFor raw d i0) t m ≠ 0 := by
    have hpos : 0 < groupSum raw (groupFor raw d i0) t m := by
      apply List.sum_pos
      · intro x hx
        rw [List.mem_map] at hx
        obtain ⟨i, hi, rfl⟩ := hx
        obtain ⟨q, hq, hq1⟩ := hfin i hi
        rw [hq, toRat_num]
        linarith
      · rw [Ne, List.map_eq_nil_iff]
        exact hgne
    exact ne_of_gt hpos
  have hslots : ∀ i ∈ groupFor raw d i0, getV out i t m =
      getV (normalizeValuesForMonth raw (groupFor raw d i0) m t
        cfg.sumConstraint) i t m := by
    intro i hi
    have hilen := (hgvalid i hi).1
    have hileveld := (hgvalid i hi).2
    have hmem := getV_normalizeAllLevelValues_mem raw cfg.levelValues
      cfg.months cfg.sumConstraint i t m hmonths ht hm hilen
      (by rw [hileveld]; exact hd1) (by rw [hileveld]; exact hdL)
    rw [hout]
    rw [hileveld] at hmem
    rw [hmem, groupFor_eq_of_mem raw d i0 i hi]
  rw [sumSlots_congr out _ _ t m hslots]
  exact (normalizeValuesForMonth_values raw (groupFor raw d i0) m t
    cfg.sumConstraint hgne hgnd (fun i hi => (hgvalid i hi).1)
    (fun i hi => (hfin i hi).elim (fun q hq => ⟨q, hq.1⟩)) hS).2.2

/-! ## Idempotence and sampled-value bounds -/

theorem jsRoundRat_intCast (z : ℤ) : JSVal.jsRoundRat ((z : ℤ) : ℚ) = z := by
  unfold JSVal.jsRoundRat
  rw [add_comm, Int.floor_add_int]
  norm_num

/-- Re-normalizing a group of integer values that already sums to a
nonzero constraint computes scale factor 1 and changes nothing. -/
theorem normalizeValuesForMonth_idempotent (data : List Entry) (ch : List ℕ)
    (m : String) (t : Series) (C : ℚ) (hCne : C ≠ 0) (hnd : ch.Nodup)
    (hvalid : ∀ i ∈ ch, i < data.length)
    (hint : ∀ i ∈ ch, ∃ z : ℤ, getV data i t m = JSVal.num z)
    (hsum : groupSum data ch t m = C) :
    (JSVal.num C).div (sumSlots data ch t m) = JSVal.num 1 ∧
    ∀ j s2 m2, getV (normalizeValuesForMonth data ch m t C) j s2 m2 =
      getV data j s2 m2 := by
  have hfin : ∀ i ∈ ch, ∃ q : ℚ, getV data i t m = JSVal.num q :=
    fun i hi => (hint i hi).elim (fun z hz => ⟨z, hz⟩)
  have hS : groupSum data ch t m ≠ 0 := by rw [hsum]; exact hCne
  have hne : ch ≠ [] := by
    intro hc
    apply hCne
    rw [← hsum, hc]
    rfl
  have hsumSlots : sumSlots data ch t m = JSVal.num C := by
    rw [sumSlots_num data ch t m hfin]
    exact congrArg JSVal.num hsum
  have hdiv1 : (JSVal.num C).div (sumSlots data ch t m) = JSVal.num 1 := by
    rw [hsumSlots]
    simp only [JSVal.div]
    rw [if_neg hCne, div_self hCne]
  refine ⟨hdiv1, ?_⟩
  have hscaled : ∀ i ∈ ch, ∀ z : ℤ, getV data i t m = JSVal.num z →
      scaledVal data ch t m C i = z := by
    intro i hi z hz
    unfold scaledVal
    rw [hz, toRat_num, hsum, div_self hCne, mul_one, jsRoundRat_intCast]
  have hvals := normalizeValuesForMonth_values data ch m t C hne hnd hvalid
    hfin hS
  have hpt : ∀ i ∈ ch, ((scaledVal data ch t m C i : ℤ) : ℚ) =
      (getV data i t m).toRat := by
    intro i hi
    obtain ⟨z, hz⟩ := hint i hi
    rw [hscaled i hi z hz, hz, toRat_num]
  have hssum : ((scaledSum data ch t m C : ℤ) : ℚ) = C := by
    rw [← cast_scaledSum, List.map_congr_left hpt]
    exact hsum
  intro j s2 m2
  by_cases hslot : j ∈ ch ∧ s2 = t ∧ m2 = m
  · obtain ⟨hj, rfl, rfl⟩ := hslot
    obtain ⟨z, hz⟩ := hint j hj
    by_cases hlast : j = ch.getLast hne
    · rw [hlast, hvals.2.1, hssum]
      rw [← hlast, hscaled j hj z hz, hz]
      rw [sub_self, add_zero]
    · rw [hvals.1 j hj hlast, hscaled j hj z hz, hz]
  · rw [getV_normalizeValuesForMonth_other]
    push_neg at hslot
    by_cases h1 : j ∈ ch
    · by_cases h2 : s2 = t
      · exact Or.inr (Or.inr (hslot h1 h2))
      · exact Or.inr (Or.inl h2)
    · exact Or.inl h1

theorem floor_scaled_bounds (zmin zmax : ℤ) (hle : zmin ≤ zmax) (r : ℚ)
    (h0 : 0 ≤ r) (h1 : r < 1) :
    0 ≤ ⌊r * ((zmax : ℚ) - (zmin : ℚ) + 1)⌋ ∧
    ⌊r * ((zmax : ℚ) - (zmin : ℚ) + 1)⌋ ≤ zmax - zmin := by
  have hk : (0 : ℚ) < (zmax : ℚ) - (zmin : ℚ) + 1 := by
    have : (zmin : ℚ) ≤ (zmax : ℚ) := by exact_mod_cast hle
    linarith
  constructor
  · exact Int.floor_nonneg.mpr (mul_nonneg h0 (le_of_lt hk))
  · have hlt : r * ((zmax : ℚ) - (zmin : ℚ) + 1) <
        ((zmax - zmin + 1 : ℤ) : ℚ) := by
      push_cast
      nlinarith
    have := Int.floor_lt.mpr hlt
    omega

theorem floor_rel_bounds (r : ℚ) (h0 : 0 ≤ r) (h1 : r < 1) :
    1 ≤ ⌊r * 30⌋ + 1 ∧ ⌊r * 30⌋ + 1 ≤ 30 := by
  constructor
  · have : (0 : ℤ) ≤ ⌊r * 30⌋ :=
      Int.floor_nonneg.mpr (mul_nonneg h0 (by norm_num))
    omega
  · have hlt : r * 30 < ((30 : ℤ) : ℚ) := by
      push_cast
      nlinarith
    have := Int.floor_lt.mpr hlt
    omega

/-! ## Remaining helpers for the claims -/

theorem groupByKey_same_group_iff (data : List Entry) (l : List ℕ)
    (i j : ℕ) (hi : i ∈ l) (hj : j ∈ l) :
    (∃ g ∈ groupByKey data l, i ∈ g ∧ j ∈ g) ↔
      parentKey (entryAt data i) = parentKey (entryAt data j) := by
  constructor
  · rintro ⟨g, hg, hig, hjg⟩
    obtain ⟨i1, hi1, hgeq⟩ := groupByKey_eq_filter data l g hg
    have h1 := List.of_mem_filter (hgeq ▸ hig)
    have h2 := List.of_mem_filter (hgeq ▸ hjg)
    simp only [beq_iff_eq] at h1 h2
    rw [h1, h2]
  · intro hkey
    obtain ⟨g, hg, hig⟩ := groupByKey_cover data l i hi
    obtain ⟨i1, hi1, hgeq⟩ := groupByKey_eq_filter data l g hg
    have h1 := List.of_mem_filter (hgeq ▸ hig)
    simp only [beq_iff_eq] at h1
    refine ⟨g, hg, hig, ?_⟩
    rw [hgeq]
    refine List.mem_filter.mpr ⟨hj, ?_⟩
    simp only [beq_iff_eq]
    rw [← hkey]
    exact h1

/-- A normalized slot of a depth-1 entry comes from one normalization of
the whole depth-1 level. -/
theorem norm_slot_at_level1 (data : List Entry)
    (levelValues : List (List String)) (months : List String) (C : ℚ)
    (i : ℕ) (t : Series) (m : String) (hmnd : months.Nodup)
    (ht : t = Series.plan ∨ t = Series.forecast) (hm : m ∈ months)
    (hi : i < data.length) (hpath1 : (entryAt data i).path.length = 1)
    (hL : 1 ≤ levelValues.length) :
    getV (normalizeAllLevelValues data levelValues months C) i t m =
      getV (normalizeValuesForMonth data (entriesAtLevelIdx data 1) m t C)
        i t m := by
  rw [getV_normalizeAllLevelValues_mem data levelValues months C i t m
    hmnd ht hm hi (by rw [hpath1]) (by rw [hpath1]; exact hL), hpath1]
  unfold groupFor
  rw [if_pos rfl]

theorem plan_ne_forecast : Series.plan ≠ Series.forecast := by decide

theorem forecast_ne_plan : Series.forecast ≠ Series.plan := by decide

/-! ## Concrete configurations for the spec scenarios -/

/-- The all-zeros random stream (a valid stream; with a pinned range
`min = max` the generated `plan` values do not depend on it). -/
def zeroStream : RandStream := fun _ => 0

theorem zeroStream_valid : ValidStream zeroStream :=
  fun _ => ⟨le_refl 0, by norm_num [zeroStream]⟩

/-- Scenario C of the spec: three depth-1 siblings whose raw `plan` is
always 0 (sampling range `[0, 0]`), one month, constraint 100. -/
def zeroCfg : Config :=
  { levelValues := [["A", "B", "C"]]
    sumConstraint := 100
    months := ["2025-01"]
    valueRanges := { min := 0, max := 0 }
    includeRel := false }

/-- Scenario B of the spec: three depth-1 siblings with raw `plan = 33`
each (range `[33, 33]`), one month, constraint 100. -/
def scenarioBCfg : Config :=
  { levelValues := [["A", "B", "C"]]
    sumConstraint := 100
    months := ["2025-01"]
    valueRanges := { min := 33, max := 33 }
    includeRel := false }

/-! ## The claims -/

/-- C3: for every accepted configuration, the number of entries returned
by `generateTreeData` equals `Σ_{k=1..d} Π_{i=1..k} |levels[i]|` — the
`kk`-th summand below is the product of the sizes of the first `kk + 1`
level label sets. -/
theorem c3_entry_count (cfg : Config) (rnd : RandStream)
    (out : List Entry) (hok : generateTreeData cfg rnd = Except.ok out) :
    out.length = ((List.range cfg.levelValues.length).map (fun kk =>
      ((cfg.levelValues.take (kk + 1)).map List.length).prod)).sum := by
  obtain ⟨hL0, -, hout⟩ := generateTreeData_ok cfg rnd out hok
  rw [hout, length_normalizeAllLevelValues,
    generateEntriesForAllLevels_count _ _ _ _ _ _ (by omega),
    subtreeCount_eq_formula]
  rfl

/-- Witness for C3 at a one-level configuration with three labels:
the count formula gives `3`. -/
theorem c3_witness :
    ((generateTreeData ⟨[["A", "B", "C"]], 100, ["m"], ⟨1, 2⟩, false⟩
      zeroStream).toOption.getD []).length =
    ((List.range ([["A", "B", "C"]] : List (List String)).length).map
      (fun kk => ((([["A", "B", "C"]] : List (List String)).take
        (kk + 1)).map List.length).prod)).sum :=
  c3_entry_count ⟨[["A", "B", "C"]], 100, ["m"], ⟨1, 2⟩, false⟩ zeroStream
    _ rfl

/-- C4: `generateTreeData` fails with a `ValidationError` exactly when the
level list is empty or some level's label set is empty; the failure does
not depend on the random stream (no sampling happens first, and an error
carries no partial output), and every input passing validation yields a
successful result. -/
theorem c4_validation (cfg : Config) (rnd rnd2 : RandStream) :
    ((∃ msg, generateTreeData cfg rnd =
        Except.error (GenError.validationError msg)) ↔
      (cfg.levelValues = [] ∨ ∃ lvl ∈ cfg.levelValues, lvl = [])) ∧
    ((cfg.levelValues = [] ∨ ∃ lvl ∈ cfg.levelValues, lvl = []) →
      generateTreeData cfg rnd = generateTreeData cfg rnd2) ∧
    (¬(cfg.levelValues = [] ∨ ∃ lvl ∈ cfg.levelValues, lvl = []) →
      ∃ out, generateTreeData cfg rnd = Except.ok out) := by
  unfold generateTreeData
  by_cases h1 : cfg.levelValues.length = 0
  · rw [if_pos h1, if_pos h1]
    have hnil : cfg.levelValues = [] := List.length_eq_zero.mp h1
    exact ⟨⟨fun _ => Or.inl hnil, fun _ => ⟨_, rfl⟩⟩, fun _ => rfl,
      fun hc => absurd (Or.inl hnil) hc⟩
  · rw [if_neg h1, if_neg h1]
    by_cases h2 : (cfg.levelValues.any fun level => level.length = 0) = true
    · rw [if_pos h2, if_pos h2]
      have hex : ∃ lvl ∈ cfg.levelValues, lvl = [] := by
        rw [List.any_eq_true] at h2
        obtain ⟨lvl, hlvl, hl⟩ := h2
        exact ⟨lvl, hlvl, List.length_eq_zero.mp (by simpa using hl)⟩
      exact ⟨⟨fun _ => Or.inr hex, fun _ => ⟨_, rfl⟩⟩, fun _ => rfl,
        fun hc => absurd (Or.inr hex) hc⟩
    · rw [if_neg h2, if_neg h2]
      simp only
      have hnotbad : ¬(cfg.levelValues = [] ∨
          ∃ lvl ∈ cfg.levelValues, lvl = []) := by
        rintro (hbad | ⟨lvl, hlvl, rfl⟩)
        · exact h1 (by rw [hbad]; rfl)
        · exact h2 (List.any_eq_true.mpr ⟨[], hlvl, by simp⟩)
      refine ⟨⟨?_, fun hbad => absurd hbad hnotbad⟩,
        fun hbad => absurd hbad hnotbad, fun _ => ⟨_, rfl⟩⟩
      rintro ⟨msg, hmsg⟩
      cases hmsg

/-- Witness for C4: with an empty level list, the validation error is the
same whatever random stream is supplied. -/
theorem c4_witness :
    generateTreeData ⟨[], 100, ["m"], ⟨1, 2⟩, false⟩ zeroStream =
      generateTreeData ⟨[], 100, ["m"], ⟨1, 2⟩, false⟩ (fun _ => 1 / 2) :=
  (c4_validation ⟨[], 100, ["m"], ⟨1, 2⟩, false⟩ zeroStream
    (fun _ => 1 / 2)).2.1 (Or.inl rfl)

/-- C5: in one normalization of a group (one series, one month, nonzero
pre-scale sum), every member except the last is set to
`round(value * constraint / currentSum)`, the residual
`constraint - postRoundSum` (possibly negative, zero when no rounding
error remains) is added to exactly the last member of the group in the
group's enumeration order, and the group's sum becomes exactly the
constraint. -/
theorem c5_residual_to_last (data : List Entry) (children : List ℕ)
    (month : String) (t : Series) (C : ℚ) (hne : children ≠ [])
    (hnd : children.Nodup) (hvalid : ∀ i ∈ children, i < data.length)
    (hfin : ∀ i ∈ children, ∃ q : ℚ, getV data i t month = JSVal.num q)
    (hS : groupSum data children t month ≠ 0) :
    (∀ i ∈ children, i ≠ children.getLast hne →
      getV (normalizeValuesForMonth data children month t C) i t month =
        JSVal.num (scaledVal data children t month C i)) ∧
    getV (normalizeValuesForMonth data children month t C)
        (children.getLast hne) t month =
      JSVal.num (scaledVal data children t month C (children.getLast hne) +
        (C - scaledSum data children t month C)) ∧
    sumSlots (normalizeValuesForMonth data children month t C) children t
      month = JSVal.num C :=
  normalizeValuesForMonth_values data children month t C hne hnd hvalid
    hfin hS

/-- The store of the C5 witness: three siblings with `plan = 33`. -/
def c5Data : List Entry :=
  [⟨["A"], fun _ _ => JSVal.num 33⟩, ⟨["B"], fun _ _ => JSVal.num 33⟩,
    ⟨["C"], fun _ _ => JSVal.num 33⟩]

/-- Witness for C5: normalizing three `plan = 33` siblings to 100 makes
the group sum exactly 100. -/
theorem c5_witness :
    sumSlots (normalizeValuesForMonth c5Data [0, 1, 2] "m" Series.plan 100)
      [0, 1, 2] Series.plan "m" = JSVal.num 100 :=
  (c5_residual_to_last c5Data [0, 1, 2] "m" Series.plan 100 (by decide)
    (by decide) (by decide)
    (fun i hi => ⟨33, by fin_cases hi <;> rfl⟩)
    (by norm_num [groupSum, getV, entryAt, c5Data, JSVal.toRat])).2.2

/-- C8 (amended: the constraint must be nonzero; see the counterexample
for constraint 0): applying the per-group normalization to a group of
integer values already summing to a nonzero constraint computes a scale
factor of exactly 1 and leaves every value slot of the store unchanged
(in particular, no residual is applied). -/
theorem c8_idempotent (data : List Entry) (ch : List ℕ) (m : String)
    (t : Series) (C : ℚ) (hCne : C ≠ 0) (hnd : ch.Nodup)
    (hvalid : ∀ i ∈ ch, i < data.length)
    (hint : ∀ i ∈ ch, ∃ z : ℤ, getV data i t m = JSVal.num z)
    (hsum : groupSum data ch t m = C) :
    (JSVal.num C).div (sumSlots data ch t m) = JSVal.num 1 ∧
    ∀ j s2 m2, getV (normalizeValuesForMonth data ch m t C) j s2 m2 =
      getV data j s2 m2 :=
  normalizeValuesForMonth_idempotent data ch m t C hCne hnd hvalid hint
    hsum

/-- The store of the C8 counterexample: two siblings with value 0, whose
sum equals the (zero) constraint. -/
def c8ZeroData : List Entry :=
  [⟨["A"], fun _ _ => JSVal.num 0⟩, ⟨["B"], fun _ _ => JSVal.num 0⟩]

/-- Counterexample to C8 as stated: with constraint 0 a group of zeros
already sums to the constraint, yet re-normalizing divides 0 by 0 and
replaces the values with `NaN` instead of leaving them unchanged. -/
theorem c8_counterexample :
    groupSum c8ZeroData [0, 1] Series.plan "m" = 0 ∧
    getV c8ZeroData 0 Series.plan "m" = JSVal.num 0 ∧
    getV (normalizeValuesForMonth c8ZeroData [0, 1] "m" Series.plan 0) 0
      Series.plan "m" = JSVal.nan := by
  refine ⟨by norm_num [groupSum, getV, entryAt, c8ZeroData, JSVal.toRat],
    rfl, ?_⟩
  norm_num [normalizeValuesForMonth, sumSlots, scaleStep, setV, getV,
    entryAt, c8ZeroData, JSVal.add, JSVal.mul, JSVal.div, JSVal.round,
    JSVal.sub, JSVal.strictEq, setSlot]

/-- The store of the C8 witness: two siblings summing to 100. -/
def c8Data : List Entry :=
  [⟨["A"], fun _ _ => JSVal.num 60⟩, ⟨["B"], fun _ _ => JSVal.num 40⟩]

/-- Witness for C8: re-normalizing a `60 + 40 = 100` group against
constraint 100 has scale factor 1 and changes nothing. -/
theorem c8_witness :
    (JSVal.num 100).div (sumSlots c8Data [0, 1] Series.plan "m") =
      JSVal.num 1 ∧
    ∀ j s2 m2, getV (normalizeValuesForMonth c8Data [0, 1] "m" Series.plan
      100) j s2 m2 = getV c8Data j s2 m2 :=
  c8_idempotent c8Data [0, 1] "m" Series.plan 100 (by norm_num)
    (by decide) (by decide)
    (fun i hi => by
      fin_cases hi
      · exact ⟨60, rfl⟩
      · exact ⟨40, rfl⟩)
    (by norm_num [groupSum, getV, entryAt, c8Data, JSVal.toRat])

/-- C10: the normalizer groups depth-`d` entries (`d > 1`) by the string
obtained by joining the parent path with `"|"`.  Two entries of a level
are grouped together exactly when their parent keys coincide; for
`'|'`-free labels this holds exactly when their parent paths are equal,
while labels containing `'|'` can merge distinct parent paths — e.g.
parent paths `["a", "b|c"]` and `["a|b", "c"]` share the key `"a|b|c"`
and land in one group. -/
theorem c10_grouping_key :
    (∀ (data : List Entry) (l : List ℕ) (i j : ℕ), i ∈ l → j ∈ l →
      ((∃ g ∈ groupByKey data l, i ∈ g ∧ j ∈ g) ↔
        parentKey (entryAt data i) = parentKey (entryAt data j))) ∧
    (∀ (e1 e2 : Entry), (∀ s ∈ e1.path, '|' ∉ s.data) →
      (∀ s ∈ e2.path, '|' ∉ s.data) → e1.path.length = e2.path.length →
      (parentKey e1 = parentKey e2 ↔ e1.path.dropLast = e2.path.dropLast)) ∧
    (parentKey ⟨["a", "b|c", "x"], fun _ _ => JSVal.nan⟩ =
        parentKey ⟨["a|b", "c", "x"], fun _ _ => JSVal.nan⟩ ∧
      (["a", "b|c", "x"] : List String).dropLast ≠
        (["a|b", "c", "x"] : List String).dropLast ∧
      groupByKey [⟨["a", "b|c", "x"], fun _ _ => JSVal.nan⟩,
        ⟨["a|b", "c", "x"], fun _ _ => JSVal.nan⟩] [0, 1] = [[0, 1]]) := by
  refine ⟨groupByKey_same_group_iff, ?_, ?_, by decide, ?_⟩
  · intro e1 e2 hp1 hp2 hlen
    constructor
    · intro hkey
      exact joinPipe_inj _ _
        (fun s hs => hp1 s ((List.dropLast_sublist _).subset hs))
        (fun s hs => hp2 s ((List.dropLast_sublist _).subset hs))
        (by rw [List.length_dropLast, List.length_dropLast, hlen]) hkey
    · intro hdl
      unfold parentKey
      rw [hdl]
  · decide
  · have hstr : ("a|b" ++ "|" ++ "c" : String) = "a" ++ "|" ++ "b|c" := by
      decide
    norm_num [groupByKey, parentKey, entryAt, joinPipe, hstr]

/-- Witness for C10: for two concrete depth-2 entries with `'|'`-free
labels, key equality coincides with parent-path equality. -/
theorem c10_witness :
    parentKey ⟨["a", "x"], fun _ _ => JSVal.nan⟩ =
        parentKey ⟨["a", "y"], fun _ _ => JSVal.nan⟩ ↔
      (["a", "x"] : List String).dropLast =
        (["a", "y"] : List String).dropLast :=
  c10_grouping_key.2.1 ⟨["a", "x"], fun _ _ => JSVal.nan⟩
    ⟨["a", "y"], fun _ _ => JSVal.nan⟩ (by decide) (by decide) rfl

/-- The unnormalized entries of the zero-range configuration under the
all-zeros stream. -/
def zeroRaw : List Entry :=
  (generateEntriesForAllLevels zeroCfg.levelValues zeroCfg.months
    zeroCfg.valueRanges zeroCfg.includeRel zeroStream 0).1

/-- The dataset the zero-range configuration actually returns. -/
def zeroOut : List Entry :=
  normalizeAllLevelValues zeroRaw zeroCfg.levelValues zeroCfg.months
    zeroCfg.sumConstraint

/-- With a zero pre-scale sum, the scale factor is `Infinity` and every
normalized `plan` slot of the returned dataset is `NaN`. -/
theorem zeroOut_plan_nan :
    ∀ i ∈ [0, 1, 2], getV zeroOut i Series.plan "2025-01" = JSVal.nan := by
  intro i hi
  have hslot : getV zeroOut i Series.plan "2025-01" =
      getV (normalizeValuesForMonth zeroRaw (entriesAtLevelIdx zeroRaw 1)
        "2025-01" Series.plan 100) i Series.plan "2025-01" := by
    show getV (normalizeAllLevelValues zeroRaw zeroCfg.levelValues
      zeroCfg.months zeroCfg.sumConstraint) i Series.plan "2025-01" = _
    fin_cases hi <;>
      exact norm_slot_at_level1 zeroRaw zeroCfg.levelValues zeroCfg.months
        zeroCfg.sumConstraint _ Series.plan "2025-01" (by decide)
        (Or.inl rfl) (by decide) (by decide) (by decide) (by decide)
  rw [hslot, show entriesAtLevelIdx zeroRaw 1 = [0, 1, 2] from by decide]
  fin_cases hi <;>
  · norm_num [normalizeValuesForMonth, sumSlots, scaleStep, setV, getV,
      entryAt, zeroRaw, zeroCfg, generateEntriesForAllLevels, genLevel1,
      genFromRoots, generateValues, genValuesLoop, setSlot, zeroStream,
      JSVal.add, JSVal.mul, JSVal.div, JSVal.round, JSVal.sub,
      JSVal.strictEq, plan_ne_forecast]

/-- C2: the code does NOT implement the claimed behaviour.  On three
siblings whose raw `plan` is 0, `generateTreeData` raises no error at
all: it divides by the zero group sum and silently returns entries whose
`plan` values are all `NaN` (the spec itself flags this source behaviour
as a defect: a `DegenerateGroupError` should be raised instead and no
non-finite value produced). -/
theorem c2_degenerate_group_not_rejected :
    generateTreeData zeroCfg zeroStream = Except.ok zeroOut ∧
    (∀ i ∈ [0, 1, 2], getV zeroRaw i Series.plan "2025-01" = JSVal.num 0) ∧
    (∀ i ∈ [0, 1, 2], getV zeroOut i Series.plan "2025-01" = JSVal.nan) := by
  refine ⟨rfl, ?_, zeroOut_plan_nan⟩
  intro i hi
  fin_cases hi <;>
  · norm_num [getV, entryAt, zeroRaw, zeroCfg, generateEntriesForAllLevels,
      genLevel1, genFromRoots, generateValues, genValuesLoop, setSlot,
      zeroStream, plan_ne_forecast]

/-- C1 (amended): the sum invariant holds for every accepted
configuration whose sampling range is positive (`1 ≤ min ≤ max`, which
rules out zero group sums), whose period keys are pairwise distinct, and
whose labels do not contain `'|'` (which rules out merged sibling
groups): for every depth `d`, parent path `p`, series `plan` or
`forecast` and configured month, the values of the (nonempty) sibling
set sum exactly to the constraint. -/
theorem c1_sibling_sum_invariant (cfg : Config) (rnd : RandStream)
    (out : List Entry) (hok : generateTreeData cfg rnd = Except.ok out)
    (hstream : ValidStream rnd) (hmin : 1 ≤ cfg.valueRanges.min)
    (hrange : cfg.valueRanges.min ≤ cfg.valueRanges.max)
    (hmonths : cfg.months.Nodup)
    (hpipe : ∀ lvl ∈ cfg.levelValues, ∀ s ∈ lvl, '|' ∉ s.data)
    (d : ℕ) (p : List String) (t : Series)
    (ht : t = Series.plan ∨ t = Series.forecast)
    (m : String) (hm : m ∈ cfg.months)
    (hne : sibIdxs out d p ≠ []) :
    sumSlots out (sibIdxs out d p) t m = JSVal.num cfg.sumConstraint :=
  sum_invariant_assembled cfg rnd out hok hstream hmin hrange hmonths
    hpipe d p t ht m hm hne

/-- Counterexample to C1 as stated: the zero-range configuration is
accepted by `generateTreeData` (validation only inspects the level
sets), yet the depth-1 sibling group's `plan` sum is `NaN`, not the
constraint. -/
theorem c1_counterexample :
    generateTreeData zeroCfg zeroStream = Except.ok zeroOut ∧
    sumSlots zeroOut (sibIdxs zeroOut 1 []) Series.plan "2025-01" ≠
      JSVal.num zeroCfg.sumConstraint := by
  refine ⟨rfl, ?_⟩
  have hsp : SamePaths zeroOut zeroRaw :=
    ⟨length_normalizeAllLevelValues ..,
      fun j => path_normalizeAllLevelValues ..⟩
  rw [sibIdxs_congr zeroOut zeroRaw hsp 1 [],
    show sibIdxs zeroRaw 1 [] = [0, 1, 2] from by decide,
    show sumSlots zeroOut [0, 1, 2] Series.plan "2025-01" =
      (((JSVal.num 0).add (getV zeroOut 0 Series.plan "2025-01")).add
        (getV zeroOut 1 Series.plan "2025-01")).add
        (getV zeroOut 2 Series.plan "2025-01") from rfl,
    zeroOut_plan_nan 0 (by decide), zeroOut_plan_nan 1 (by decide),
    zeroOut_plan_nan 2 (by decide)]
  decide

/-- The C1 witness configuration: two depth-1 siblings, pinned raw value
100, constraint 100. -/
def c1wCfg : Config :=
  { levelValues := [["A", "B"]]
    sumConstraint := 100
    months := ["2025-01"]
    valueRanges := { min := 100, max := 100 }
    includeRel := false }

/-- The dataset the C1 witness configuration returns. -/
def c1wOut : List Entry :=
  (generateTreeData c1wCfg zeroStream).toOption.getD []

/-- Witness for C1: the depth-1 sibling set of the witness configuration
sums to the constraint. -/
theorem c1_witness :
    sumSlots c1wOut (sibIdxs c1wOut 1 []) Series.plan "2025-01" =
      JSVal.num c1wCfg.sumConstraint := by
  have hout : c1wOut = normalizeAllLevelValues
      (generateEntriesForAllLevels c1wCfg.levelValues c1wCfg.months
        c1wCfg.valueRanges c1wCfg.includeRel zeroStream 0).1
      c1wCfg.levelValues c1wCfg.months c1wCfg.sumConstraint := rfl
  refine c1_sibling_sum_invariant c1wCfg zeroStream c1wOut rfl
    zeroStream_valid (by norm_num [c1wCfg]) (by norm_num [c1wCfg])
    (by decide) (by decide) 1 [] Series.plan (Or.inl rfl) "2025-01"
    (by decide) ?_
  have hsp : SamePaths c1wOut (generateEntriesForAllLevels
      c1wCfg.levelValues c1wCfg.months c1wCfg.valueRanges c1wCfg.includeRel
      zeroStream 0).1 := by
    rw [hout]
    exact ⟨length_normalizeAllLevelValues ..,
      fun j => path_normalizeAllLevelValues ..⟩
  rw [sibIdxs_congr c1wOut _ hsp 1 []]
  decide

/-- C6: when `rel` values are requested, normalization never writes them:
every entry's `rel` value in the returned dataset equals the originally
sampled value, which is an integer in `[1, 30]`. -/
theorem c6_rel_untouched (cfg : Config) (rnd : RandStream)
    (out : List Entry) (hok : generateTreeData cfg rnd = Except.ok out)
    (hstream : ValidStream rnd) (hrel : cfg.includeRel = true) (i : ℕ)
    (hi : i < out.length) (m : String) (hm : m ∈ cfg.months) :
    getV out i Series.rel m =
      getV (generateEntriesForAllLevels cfg.levelValues cfg.months
        cfg.valueRanges cfg.includeRel rnd 0).1 i Series.rel m ∧
    ∃ z : ℤ, getV out i Series.rel m = JSVal.num (z : ℚ) ∧
      1 ≤ z ∧ z ≤ 30 := by
  obtain ⟨hL0, -, hout⟩ := generateTreeData_ok cfg rnd out hok
  have hiraw : i < (generateEntriesForAllLevels cfg.levelValues cfg.months
      cfg.valueRanges cfg.includeRel rnd 0).1.length := by
    rw [hout, length_normalizeAllLevelValues] at hi
    exact hi
  have huntouched : getV out i Series.rel m =
      getV (generateEntriesForAllLevels cfg.levelValues cfg.months
        cfg.valueRanges cfg.includeRel rnd 0).1 i Series.rel m := by
    rw [hout]
    exact getV_normalizeAllLevelValues_other _ _ _ _ _ _ _ (Or.inl rfl)
  refine ⟨huntouched, ?_⟩
  have hsamp := (generateEntriesForAllLevels_entries cfg.levelValues
    cfg.months cfg.valueRanges cfg.includeRel rnd hstream (by omega) 0
    _ (entryAt_mem _ i hiraw)).2.2.2 m hm
  obtain ⟨r1, r2, -, -, -, -, -, -, hrelpart⟩ := hsamp
  obtain ⟨r3, hr30, hr31, hrelval⟩ := hrelpart hrel
  refine ⟨⌊r3 * 30⌋ + 1, ?_, (floor_rel_bounds r3 hr30 hr31).1,
    (floor_rel_bounds r3 hr30 hr31).2⟩
  rw [huntouched]
  exact_mod_cast hrelval

/-- The C6 witness configuration: one entry, `rel` requested. -/
def c6Cfg : Config :=
  { levelValues := [["A"]]
    sumConstraint := 100
    months := ["m"]
    valueRanges := { min := 5, max := 5 }
    includeRel := true }

/-- Witness for C6 at the one-entry configuration. -/
theorem c6_witness :
    getV ((generateTreeData c6Cfg zeroStream).toOption.getD []) 0
        Series.rel "m" =
      getV (generateEntriesForAllLevels c6Cfg.levelValues c6Cfg.months
        c6Cfg.valueRanges c6Cfg.includeRel zeroStream 0).1 0 Series.rel
        "m" ∧
    ∃ z : ℤ, getV ((generateTreeData c6Cfg zeroStream).toOption.getD []) 0
        Series.rel "m" = JSVal.num (z : ℚ) ∧ 1 ≤ z ∧ z ≤ 30 := by
  refine c6_rel_untouched c6Cfg zeroStream _ rfl zeroStream_valid rfl 0
    ?_ "m" (by decide)
  rw [length_normalizeAllLevelValues]
  decide

/-- C7: for every generated entry and configured month (over an integer
range `min ≤ max`), the pre-normalization values are: `plan` an integer
in `[min, max]`; `forecast` equal to `round(plan * (1 + v))` for some
perturbation `v ∈ [-1/20, 1/20]`; and, when requested, `rel` an integer
in `[1, 30]` drawn from its own independent stream position. -/
theorem c7_sampled_shape (cfg : Config) (rnd : RandStream)
    (hstream : ValidStream rnd) (zmin zmax : ℤ)
    (hzmin : cfg.valueRanges.min = (zmin : ℚ))
    (hzmax : cfg.valueRanges.max = (zmax : ℚ)) (hle : zmin ≤ zmax)
    (hlv : 1 ≤ cfg.levelValues.length) (k : ℕ) (e : Entry)
    (he : e ∈ (generateEntriesForAllLevels cfg.levelValues cfg.months
      cfg.valueRanges cfg.includeRel rnd k).1) (m : String)
    (hm : m ∈ cfg.months) :
    ∃ p : ℤ, e.values Series.plan m = JSVal.num (p : ℚ) ∧ zmin ≤ p ∧
      p ≤ zmax ∧
      (∃ v : ℚ, -(1 / 20) ≤ v ∧ v ≤ 1 / 20 ∧
        e.values Series.forecast m =
          JSVal.num ((JSVal.jsRoundRat ((p : ℚ) * (1 + v)) : ℤ) : ℚ)) ∧
      (cfg.includeRel = true → ∃ z : ℤ,
        e.values Series.rel m = JSVal.num (z : ℚ) ∧ 1 ≤ z ∧ z ≤ 30) := by
  have hsamp := (generateEntriesForAllLevels_entries cfg.levelValues
    cfg.months cfg.valueRanges cfg.includeRel rnd hstream hlv k e
    he).2.2.2 m hm
  obtain ⟨r1, r2, hr10, hr11, hr20, hr21, hplan, hforecast, hrelpart⟩ :=
    hsamp
  rw [hzmin, hzmax] at hplan hforecast
  obtain ⟨hfl0, hfl1⟩ := floor_scaled_bounds zmin zmax hle r1 hr10 hr11
  have hbase : ((⌊r1 * ((zmax : ℚ) - (zmin : ℚ) + 1)⌋ + zmin : ℤ) : ℚ) =
      ((⌊r1 * ((zmax : ℚ) - (zmin : ℚ) + 1)⌋ : ℤ) : ℚ) + (zmin : ℚ) := by
    push_cast
    ring
  refine ⟨⌊r1 * ((zmax : ℚ) - (zmin : ℚ) + 1)⌋ + zmin, ?_, by omega,
    by omega, ?_, ?_⟩
  · rw [hplan, hbase]
  · refine ⟨r2 * (1 / 10) - 1 / 20, by linarith, by linarith, ?_⟩
    rw [hforecast, hbase]
  · intro hrel
    obtain ⟨r3, hr30, hr31, hrelval⟩ := hrelpart hrel
    exact ⟨⌊r3 * 30⌋ + 1, by exact_mod_cast hrelval,
      (floor_rel_bounds r3 hr30 hr31).1, (floor_rel_bounds r3 hr30 hr31).2⟩

/-- The C7 witness configuration: one entry, range `[2, 5]`, `rel`
requested. -/
def c7Cfg : Config :=
  { levelValues := [["A"]]
    sumConstraint := 100
    months := ["m"]
    valueRanges := { min := 2, max := 5 }
    includeRel := true }

/-- Witness for C7 at the first generated entry of the witness
configuration. -/
theorem c7_witness :
    ∃ p : ℤ, (entryAt (generateEntriesForAllLevels c7Cfg.levelValues
        c7Cfg.months c7Cfg.valueRanges c7Cfg.includeRel zeroStream 0).1
        0).values Series.plan "m" = JSVal.num (p : ℚ) ∧ (2 : ℤ) ≤ p ∧
      p ≤ (5 : ℤ) ∧
      (∃ v : ℚ, -(1 / 20) ≤ v ∧ v ≤ 1 / 20 ∧
        (entryAt (generateEntriesForAllLevels c7Cfg.levelValues
          c7Cfg.months c7Cfg.valueRanges c7Cfg.includeRel zeroStream 0).1
          0).values Series.forecast "m" =
          JSVal.num ((JSVal.jsRoundRat ((p : ℚ) * (1 + v)) : ℤ) : ℚ)) ∧
      (c7Cfg.includeRel = true → ∃ z : ℤ,
        (entryAt (generateEntriesForAllLevels c7Cfg.levelValues
          c7Cfg.months c7Cfg.valueRanges c7Cfg.includeRel zeroStream 0).1
          0).values Series.rel "m" = JSVal.num (z : ℚ) ∧ 1 ≤ z ∧
          z ≤ 30) :=
  c7_sampled_shape c7Cfg zeroStream zeroStream_valid 2 5
    (by norm_num [c7Cfg]) (by norm_num [c7Cfg]) (by norm_num)
    (by decide) 0 _ (entryAt_mem _ 0 (by decide)) "m" (by decide)

/-- The unnormalized entries of Scenario B under the all-zeros stream. -/
def scenarioBRaw : List Entry :=
  (generateEntriesForAllLevels scenarioBCfg.levelValues scenarioBCfg.months
    scenarioBCfg.valueRanges scenarioBCfg.includeRel zeroStream 0).1

/-- The dataset Scenario B returns. -/
def scenarioBOut : List Entry :=
  normalizeAllLevelValues scenarioBRaw scenarioBCfg.levelValues
    scenarioBCfg.months scenarioBCfg.sumConstraint

/-- C9 (Scenario B): three depth-1 siblings with raw `plan = 33` each.
The group's current sum is 99; every member scales-and-rounds to 33, so
the post-round sum is 99 and the residual 1 lands on the last sibling in
label-set order (`"C"`): the final `plan` values are 33, 33, 34. -/
theorem c9_scenario_b :
    generateTreeData scenarioBCfg zeroStream = Except.ok scenarioBOut ∧
    (∀ i ∈ [0, 1, 2],
      getV scenarioBRaw i Series.plan "2025-01" = JSVal.num 33) ∧
    sumSlots scenarioBRaw [0, 1, 2] Series.plan "2025-01" =
      JSVal.num 99 ∧
    (∀ i ∈ [0, 1, 2],
      scaledVal scenarioBRaw [0, 1, 2] Series.plan "2025-01" 100 i = 33) ∧
    scaledSum scenarioBRaw [0, 1, 2] Series.plan "2025-01" 100 = 99 ∧
    (entryAt scenarioBOut 0).path = ["A"] ∧
    (entryAt scenarioBOut 1).path = ["B"] ∧
    (entryAt scenarioBOut 2).path = ["C"] ∧
    getV scenarioBOut 0 Series.plan "2025-01" = JSVal.num 33 ∧
    getV scenarioBOut 1 Series.plan "2025-01" = JSVal.num 33 ∧
    getV scenarioBOut 2 Series.plan "2025-01" = JSVal.num 34 := by
  have hraw : ∀ i ∈ [0, 1, 2],
      getV scenarioBRaw i Series.plan "2025-01" = JSVal.num 33 := by
    intro i hi
    fin_cases hi <;>
    · norm_num [getV, entryAt, scenarioBRaw, scenarioBCfg,
        generateEntriesForAllLevels, genLevel1, genFromRoots,
        generateValues, genValuesLoop, setSlot, zeroStream,
        plan_ne_forecast]
  have hscaled : ∀ i ∈ [0, 1, 2],
      scaledVal scenarioBRaw [0, 1, 2] Series.plan "2025-01" 100 i =
        33 := by
    intro i hi
    have hgs : groupSum scenarioBRaw [0, 1, 2] Series.plan "2025-01" =
        99 := by
      rw [show groupSum scenarioBRaw [0, 1, 2] Series.plan "2025-01" =
        (getV scenarioBRaw 0 Series.plan "2025-01").toRat +
          ((getV scenarioBRaw 1 Series.plan "2025-01").toRat +
            ((getV scenarioBRaw 2 Series.plan "2025-01").toRat + 0))
        from rfl, hraw 0 (by decide), hraw 1 (by decide),
        hraw 2 (by decide)]
      norm_num [JSVal.toRat]
    unfold scaledVal
    rw [hgs]
    fin_cases hi <;>
    · rw [hraw _ (by decide), toRat_num]
      norm_num [JSVal.jsRoundRat]
  have hgs : groupSum scenarioBRaw [0, 1, 2] Series.plan "2025-01" =
      99 := by
    rw [show groupSum scenarioBRaw [0, 1, 2] Series.plan "2025-01" =
      (getV scenarioBRaw 0 Series.plan "2025-01").toRat +
        ((getV scenarioBRaw 1 Series.plan "2025-01").toRat +
          ((getV scenarioBRaw 2 Series.plan "2025-01").toRat + 0))
      from rfl, hraw 0 (by decide), hraw 1 (by decide),
      hraw 2 (by decide)]
    norm_num [JSVal.toRat]
  have hsumraw : sumSlots scenarioBRaw [0, 1, 2] Series.plan "2025-01" =
      JSVal.num 99 := by
    rw [show sumSlots scenarioBRaw [0, 1, 2] Series.plan "2025-01" =
      (((JSVal.num 0).add (getV scenarioBRaw 0 Series.plan "2025-01")).add
        (getV scenarioBRaw 1 Series.plan "2025-01")).add
        (getV scenarioBRaw 2 Series.plan "2025-01") from rfl,
      hraw 0 (by decide), hraw 1 (by decide), hraw 2 (by decide)]
    norm_num [JSVal.add]
  have hssum : scaledSum scenarioBRaw [0, 1, 2] Series.plan "2025-01"
      100 = 99 := by
    rw [show scaledSum scenarioBRaw [0, 1, 2] Series.plan "2025-01" 100 =
      scaledVal scenarioBRaw [0, 1, 2] Series.plan "2025-01" 100 0 +
        (scaledVal scenarioBRaw [0, 1, 2] Series.plan "2025-01" 100 1 +
          (scaledVal scenarioBRaw [0, 1, 2] Series.plan "2025-01" 100 2 +
            0)) from rfl, hscaled 0 (by decide), hscaled 1 (by decide),
      hscaled 2 (by decide)]
    norm_num
  have hvals := normalizeValuesForMonth_values scenarioBRaw [0, 1, 2]
    "2025-01" Series.plan 100 (by decide) (by decide) (by decide)
    (fun i hi => by fin_cases hi <;> exact ⟨_, rfl⟩)
    (by rw [hgs]; norm_num)
  have hslot : ∀ i ∈ [0, 1, 2],
      getV scenarioBOut i Series.plan "2025-01" =
        getV (normalizeValuesForMonth scenarioBRaw [0, 1, 2] "2025-01"
          Series.plan 100) i Series.plan "2025-01" := by
    intro i hi
    have hstep : getV scenarioBOut i Series.plan "2025-01" =
        getV (normalizeValuesForMonth scenarioBRaw
          (entriesAtLevelIdx scenarioBRaw 1) "2025-01" Series.plan 100) i
          Series.plan "2025-01" := by
      show getV (normalizeAllLevelValues scenarioBRaw
        scenarioBCfg.levelValues scenarioBCfg.months
        scenarioBCfg.sumConstraint) i Series.plan "2025-01" = _
      fin_cases hi <;>
        exact norm_slot_at_level1 scenarioBRaw scenarioBCfg.levelValues
          scenarioBCfg.months scenarioBCfg.sumConstraint _ Series.plan
          "2025-01" (by decide) (Or.inl rfl) (by decide) (by decide)
          (by decide) (by decide)
    rw [hstep,
      show entriesAtLevelIdx scenarioBRaw 1 = [0, 1, 2] from by decide]
  have hlast : ([0, 1, 2] : List ℕ).getLast (by decide) = 2 := rfl
  refine ⟨rfl, hraw, hsumraw, hscaled, hssum, ?_, ?_, ?_, ?_, ?_, ?_⟩
  · show (entryAt (normalizeAllLevelValues scenarioBRaw
      scenarioBCfg.levelValues scenarioBCfg.months
      scenarioBCfg.sumConstraint) 0).path = _
    rw [path_normalizeAllLevelValues]
    decide
  · show (entryAt (normalizeAllLevelValues scenarioBRaw
      scenarioBCfg.levelValues scenarioBCfg.months
      scenarioBCfg.sumConstraint) 1).path = _
    rw [path_normalizeAllLevelValues]
    decide
  · show (entryAt (normalizeAllLevelValues scenarioBRaw
      scenarioBCfg.levelValues scenarioBCfg.months
      scenarioBCfg.sumConstraint) 2).path = _
    rw [path_normalizeAllLevelValues]
    decide
  · rw [hslot 0 (by decide), hvals.1 0 (by decide) (by decide),
      hscaled 0 (by decide)]
    norm_num
  · rw [hslot 1 (by decide), hvals.1 1 (by decide) (by decide),
      hscaled 1 (by decide)]
    norm_num
  · rw [hslot 2 (by decide)]
    have h2 := hvals.2.1
    rw [show ([0, 1, 2] : List ℕ).getLast (by decide) = 2 from rfl] at h2
    rw [h2, hscaled 2 (by decide), hssum]
    norm_num
